import Mathlib

/-!
Shallow embedding of the core integer pipeline of `src/pgmp-chudnovsky.h` and
`src/pgmp-chudnovsky.c` (Chudnovsky-series binary splitting with a sparse
prime-factorisation twin representation, smallest-factor sieve, GCD
cancellation, and the tournament reduction of per-shard triples), together
with proofs and refutations of the specification claims.

Conventions used throughout the embedding:
* `mpz_t` values are modelled as `Int` (the series value `q` is signed; `p`
  and `g` are positive).
* `uint_t` quantities are modelled as `Nat`; C unsigned comparisons such as
  `terms <= 0` become the corresponding `Nat` statements.
* C loops are modelled as structurally recursive functions over an explicit
  fuel counter that dominates the loop's iteration count, with the real loop
  condition tested inside; this keeps every definition executable by the
  kernel.
* The split point `mid = a + (b-a) * 0.54` is computed in C in `double`
  arithmetic.  For every operand in range (`b - a < 2^35`) the truncated
  result equals `a + (b - a) * 54 / 100` in exact integer arithmetic: the
  nearest double to 0.54 is `0.54 + 0.32/2^53`, and the accumulated relative
  error is far below the distance `1/50` between an exact multiple of 54/100
  and the next integer, while in the exact-integer case the product rounds to
  a value in `[M, M + 0.02)`.  We therefore embed `mid` as
  `a + (b - a) * 54 / 100` over `Nat`.
* `m = (uint_t) sqrt(n)` in `build_sieve` is exact floor-sqrt for every
  representable sieve size (n < 2^35, so `sqrt n < 2^18` and the correctly
  rounded double sqrt truncates to `Nat.sqrt n`); it is embedded as
  `Nat.sqrt n`.
-/

namespace Chud

/-- Series constant A of the Chudnovsky formula (`#define A 13591409`). -/
def A : Nat := 13591409

/-- Series constant B (`#define B 545140134`). -/
def B : Nat := 545140134

/-- Series constant C (`#define C 640320`). -/
def C : Nat := 640320

/-- Series constant D (`#define D 12`). -/
def D : Nat := 12

/-- `MAX_DIGITS` for the default 64-bit build (32-bit sieve indices). -/
def MAX_DIGITS : Nat := 10000000000

/-! ### Smallest-factor sieve (`sieve_t`, `build_sieve`) -/

/-- One sieve slot: smallest factor, its multiplicity, and the chain link to
the index of the remaining cofactor (`sieve_t`). -/
structure SieveEntry where
  fac : Nat
  pow : Nat
  nxt : Nat
deriving DecidableEq, Repr

/-- The sieve array of `n/2` slots, modelled as a list indexed by slot. -/
abbrev SieveMap : Type := List SieveEntry

/-- Write one slot of the sieve array. -/
def svSet (s : SieveMap) (idx : Nat) (e : SieveEntry) : SieveMap :=
  s.set idx e

/-- Read one slot of the sieve array (out-of-range reads yield the zero
entry; the program never performs one). -/
def svGet (s : SieveMap) (idx : Nat) : SieveEntry := s.getD idx ⟨0, 0, 0⟩

/-- Sieve state after `memset 0` and the `s[1/2] = {1,1}` base entry:
`n/2` zero slots with slot 0 set. -/
def svInit (n : Nat) : SieveMap :=
  (List.replicate (n / 2) ⟨0, 0, 0⟩).set 0 ⟨1, 1, 0⟩

/-- Body of the inner marking loop of `build_sieve` for prime `i` at the odd
multiple `j` with cofactor slot `k`: if slot `j/2` is unmarked, record `i` as
smallest factor of `j`, with multiplicity and chain link derived from the
cofactor's slot. -/
def innerStep (s : SieveMap) (i j k : Nat) : SieveMap :=
  if (svGet s (j / 2)).fac = 0 then
    if (svGet s k).fac = i then
      svSet s (j / 2) ⟨i, (svGet s k).pow + 1, (svGet s k).nxt⟩
    else
      svSet s (j / 2) ⟨i, 1, k⟩
  else s

/-- The inner marking loop `for (j=i*i, k=i/2; j<=n; j+=i+i, k++)`,
fuel-recursive. -/
def innerLoop (n i : Nat) : Nat → Nat → Nat → SieveMap → SieveMap
  | 0, _, _, s => s
  | fuel + 1, j, k, s =>
      if j ≤ n then innerLoop n i fuel (j + (i + i)) (k + 1) (innerStep s i j k)
      else s

/-- Body of the outer loop of `build_sieve` at odd `i`: if slot `i/2` is
unmarked then `i` is prime; mark it and, when `i` is at most the square
root of the bound, run the inner marking loop from `i*i`. -/
def outerStep (n i : Nat) (s : SieveMap) : SieveMap :=
  if (svGet s (i / 2)).fac = 0 then
    let s1 := svSet s (i / 2) ⟨i, 1, (svGet s (i / 2)).nxt⟩
    if i ≤ Nat.sqrt n then innerLoop n i (n + 1) (i * i) (i / 2) s1 else s1
  else s

/-- The outer loop `for (i=3; i<=n; i+=2)`, fuel-recursive. -/
def outerLoop (n : Nat) : Nat → Nat → SieveMap → SieveMap
  | 0, _, s => s
  | fuel + 1, i, s =>
      if i ≤ n then outerLoop n fuel (i + 2) (outerStep n i s) else s

/-- `build_sieve(n)`: the final sieve map for bound `n`. -/
def build_sieve (n : Nat) : SieveMap := outerLoop n (n + 1) 3 (svInit n)

/-! ### Factored integers (`fac_t`) -/

/-- A factored integer: the parallel `fac`/`pow` arrays of `fac_t`, as a list
of (factor, exponent) pairs. -/
abbrev FacList : Type := List (Nat × Nat)

/-- Product represented by a factored integer: `∏ fac ^ pow`. -/
def evalFac (l : FacList) : Nat :=
  l.foldr (fun fp r => fp.1 ^ fp.2 * r) 1

/-- Well-formedness from the spec's data model: strictly increasing prime
factors, all exponents positive. -/
def FacValid (l : FacList) : Prop :=
  List.Pairwise (fun x y : Nat × Nat => x.1 < y.1) l ∧
    ∀ x ∈ l, Nat.Prime x.1 ∧ 0 < x.2

/-- The chain walk of `fac_set_bp`: from slot `idx`, follow `nxt` links until
slot 0, emitting each slot's (factor, multiplicity) pair. -/
def svWalk (s : SieveMap) : Nat → Nat → FacList
  | 0, _ => []
  | fuel + 1, idx =>
      if idx = 0 then []
      else ((svGet s idx).fac, (svGet s idx).pow) :: svWalk s fuel (svGet s idx).nxt

/-- `fac_set_bp(f, base, pow)`: factor `base` by walking the sieve chain from
slot `base/2`, scaling every multiplicity by `pow`. -/
def fac_set_bp (s : SieveMap) (base pw : Nat) : FacList :=
  (svWalk s base (base / 2)).map (fun fp => (fp.1, fp.2 * pw))

/-- `fac_mul2(r, f, g)`: linear sorted merge of two factored integers,
summing exponents of shared factors. -/
def fac_mul2 : FacList → FacList → FacList
  | [], g => g
  | f, [] => f
  | (pf, ef) :: f, (pg, eg) :: g =>
      if pf = pg then (pf, ef + eg) :: fac_mul2 f g
      else if pf < pg then (pf, ef) :: fac_mul2 f ((pg, eg) :: g)
      else (pg, eg) :: fac_mul2 ((pf, ef) :: f) g
termination_by f g => f.length + g.length

/-- `fac_compact(f)`: drop zero-exponent entries, preserving order. -/
def fac_compact (l : FacList) : FacList := l.filter (fun fp => 0 < fp.2)

/-- The matching pass of `fac_remove_gcd`: returns `fp` and `fg` with the
shared minimum exponents subtracted, and `fmul`, the list of shared factors
with those minimum exponents. -/
def facGcdSub : FacList → FacList → FacList × FacList × FacList
  | [], g => ([], g, [])
  | f, [] => (f, [], [])
  | (pf, ef) :: f, (pg, eg) :: g =>
      if pf = pg then
        let c := min ef eg
        let r := facGcdSub f g
        ((pf, ef - c) :: r.1, (pg, eg - c) :: r.2.1, (pf, c) :: r.2.2)
      else if pf < pg then
        let r := facGcdSub f ((pg, eg) :: g)
        ((pf, ef) :: r.1, r.2.1, r.2.2)
      else
        let r := facGcdSub ((pf, ef) :: f) g
        (r.1, (pg, eg) :: r.2.1, r.2.2)
termination_by f g => f.length + g.length

/-- Linear product of slots `[a, b)` of a factored integer (the `b-a <= 32`
base case of `bs_mul`). -/
def bsMulSmall (fmul : FacList) (a b : Nat) : Nat :=
  ((List.range (b - a)).map
    (fun t => (fmul.getD (a + t) (0, 0)).1 ^ (fmul.getD (a + t) (0, 0)).2)).prod

/-- `bs_mul(r, a, b, fmul)`: convert slots `[a, b)` of a factored integer to
a number by a balanced binary product tree. -/
def bs_mul (fmul : FacList) (a b : Nat) : Nat :=
  if b - a ≤ 32 then bsMulSmall fmul a b
  else bs_mul fmul a ((a + b) / 2) * bs_mul fmul ((a + b) / 2) b
termination_by b - a
decreasing_by
  all_goals omega

/-- Return value of `fac_remove_gcd`: updated `p`, `fp`, `g`, `fg`. -/
structure GcdRet where
  p : Int
  fp : FacList
  g : Int
  fg : FacList

/-- `fac_remove_gcd(p, fp, g, fg, gcd, fmul)`: subtract the shared minimum
exponents from `fp` and `fg`; if any factor was shared, evaluate the removed
part with `bs_mul`, divide `p` and `g` by it exactly, and compact `fp`, `fg`. -/
def fac_remove_gcd (p : Int) (fp : FacList) (g : Int) (fg : FacList) : GcdRet :=
  let r := facGcdSub fp fg
  if r.2.2.length ≠ 0 then
    let gcd : Int := (bs_mul r.2.2 0 r.2.2.length : Nat)
    ⟨p / gcd, fac_compact r.1, g / gcd, fac_compact r.2.1⟩
  else ⟨p, fp, g, fg⟩

/-! ### Binary splitter (`bs`) -/

/-- Odd part of `b`: the loop `i = b; while ((i & 1) == 0) i >>= 1;`,
fuel-recursive. -/
def oddPartF : Nat → Nat → Nat
  | 0, m => m
  | fuel + 1, m => if m % 2 = 0 then oddPartF fuel (m / 2) else m

/-- Odd part of a positive number. -/
def oddPart (m : Nat) : Nat := oddPartF m m

/-- The per-term value `p(b-1,b) = b^3 * C^3 / 24`, computed as in `bs`:
`b * b * b * (C/24)*(C/24) * (C*24)`. -/
def pTerm (b : Nat) : Int :=
  (b : Int) * b * b * ((C / 24) * (C / 24) : Nat) * ((C * 24 : Nat) : Int)

/-- The per-term value `g(b-1,b) = (2b-1)(6b-1)(6b-5)`. -/
def gTerm (b : Nat) : Int :=
  ((2 * b - 1 : Nat) : Int) * ((6 * b - 1 : Nat) : Int) * ((6 * b - 5 : Nat) : Int)

/-- The per-term value `q(b-1,b) = (-1)^b * g(b-1,b) * (A + B b)`, computed
as in `bs`: `(b*B + A) * g1`, negated when `b` is odd. -/
def qTerm (b : Nat) : Int :=
  if b % 2 = 1 then -(((b : Int) * B + A) * gTerm b) else ((b : Int) * B + A) * gTerm b

/-- Return value of one `bs` call: the exact triple and the factored twins of
`p` and `g`. -/
structure BSRet where
  p : Int
  q : Int
  g : Int
  fp : FacList
  fg : FacList
deriving Repr

/-- The `b - a == 1` base case of `bs`. -/
def bsBase (sv : SieveMap) (b : Nat) : BSRet :=
  let i := oddPart b
  let fp0 := fac_mul2 (fac_set_bp sv i 3) (fac_set_bp sv (3 * 5 * 23 * 29) 3)
  let fp1 : FacList :=
    match fp0 with
    | [] => []
    | (f0, e0) :: t => (f0, e0 - 1) :: t
  let fg1 := fac_mul2 (fac_mul2 (fac_set_bp sv (2 * b - 1) 1) (fac_set_bp sv (6 * b - 1) 1))
      (fac_set_bp sv (6 * b - 5) 1)
  ⟨pTerm b, qTerm b, gTerm b, fp1, fg1⟩

/-- The split point `mid = a + (b-a) * 0.54` (see the header comment for the
exactness of the integer form). -/
def bsMid (a b : Nat) : Nat := a + (b - a) * 54 / 100

/-- The merge step of the recursive case of `bs`: remove the factored GCD
between the right child's `p` and the left child's `g` once `level >= 4`,
combine with the documented formula, and skip the `g` update when `b`
reaches `terms`. -/
def mkNode (terms b level : Nat) (L R : BSRet) : BSRet :=
  let red : GcdRet :=
    if 4 ≤ level then fac_remove_gcd R.p R.fp L.g L.fg
    else ⟨R.p, R.fp, L.g, L.fg⟩
  let qj := R.q * red.g
  let fp1 := fac_mul2 L.fp red.fp
  let g1 := if b < terms then red.g * R.g else red.g
  let fg1 := if b < terms then fac_mul2 red.fg R.fg else red.fg
  ⟨L.p * red.p, L.q * red.p + qj, g1, fp1, fg1⟩

/-- `bs(p1, q1, g1, fp1, fg1, a, b, terms, level, ...)`, fuel-recursive. -/
def bsF (sv : SieveMap) (terms : Nat) : Nat → Nat → Nat → Nat → BSRet
  | 0, _, _, _ => ⟨1, 0, 1, [], []⟩
  | fuel + 1, a, b, level =>
      if b - a = 1 then bsBase sv b
      else mkNode terms b level (bsF sv terms fuel a (bsMid a b) (level + 1))
        (bsF sv terms fuel (bsMid a b) b (level + 1))

/-- Sieve size chosen by `main`: `max(3*5*23*29+1, terms*6)`. -/
def sieveSizeOf (terms : Nat) : Nat := max (3 * 5 * 23 * 29 + 1) (terms * 6)

/-- The sieve as built by `main` for a given term count. -/
def progSieve (terms : Nat) : SieveMap := build_sieve (sieveSizeOf terms)

/-- One full `bs` invocation on range `[a, b)` at recursion level `level`,
with the program's sieve and sufficient fuel. -/
def bsRun (terms a b level : Nat) : BSRet :=
  bsF (progSieve terms) terms (b - a) a b level

/-! ### Exact triples and the reduction (`sum`, `main`) -/

/-- A per-shard accumulator triple (one slot of `pstack`/`qstack`/`gstack`). -/
structure Triple where
  p : Int
  q : Int
  g : Int
deriving DecidableEq, Repr

/-- The (P, Q, G) part of one `bs` invocation. -/
def bsTriple (terms a b level : Nat) : Triple :=
  let r := bsRun terms a b level
  ⟨r.p, r.q, r.g⟩

/-- The documented combine formula: `P = P1*P2`, `Q = Q1*P2 + Q2*G1`,
`G = G1*G2`. -/
def combineTriple (x y : Triple) : Triple :=
  ⟨x.p * y.p, x.q * y.p + y.q * x.g, x.g * y.g⟩

/-- `cores_depth = 0; while ((1L << cores_depth) < threads) cores_depth++;`,
fuel-recursive. -/
def coresDepthF : Nat → Nat → Nat → Nat
  | 0, d, _ => d
  | fuel + 1, d, t => if 2 ^ d < t then coresDepthF fuel (d + 1) t else d

/-- The reduction-tree depth for a thread count. -/
def coresDepth (threads : Nat) : Nat := coresDepthF threads 0 threads

/-- The per-shard stacks `pstack`/`qstack`/`gstack`, as one list of triples. -/
abbrev Stacks : Type := List Triple

/-- Read stack slot `i`. -/
def stGet (st : Stacks) (i : Nat) : Triple := st.getD i ⟨1, 0, 1⟩

/-- `sum(i, k', gflag)` acting on the stacks, to be read with `k' = i + k`:
`p_i *= p_k'`, `q_i = q_i*p_k' + q_k'*g_i`, and `g_i *= g_k'` only when
`gflag` is set. -/
def sumStep (st : Stacks) (i k : Nat) (gflag : Bool) : Stacks :=
  st.set i
    ⟨(stGet st i).p * (stGet st (i + k)).p,
     (stGet st i).q * (stGet st (i + k)).p + (stGet st (i + k)).q * (stGet st i).g,
     if gflag then (stGet st i).g * (stGet st (i + k)).g else (stGet st i).g⟩

/-- The inner merge loop of one reduction round:
`for (i = 0; i < threads; i += 2k) if (i+k < threads) sum(i, i+k, gflag)`. -/
def roundInner (threads k : Nat) : Nat → Nat → Stacks → Stacks
  | 0, _, st => st
  | fuel + 1, i, st =>
      if i < threads then
        roundInner threads k fuel (i + 2 * k)
          (if i + k < threads then sumStep st i k (decide (i + 2 * k < threads)) else st)
      else st

/-- The round loop `for (k = 1; k < cores_size; k *= 2)`. -/
def roundsLoop (threads csize : Nat) : Nat → Nat → Stacks → Stacks
  | 0, _, st => st
  | fuel + 1, k, st =>
      if k < csize then
        roundsLoop threads csize fuel (2 * k) (roundInner threads k threads 0 st)
      else st

/-- The full reduction phase over the shard stacks. -/
def reduceAll (threads : Nat) (st : Stacks) : Stacks :=
  roundsLoop threads (2 ^ coresDepth threads) (coresDepth threads + 1) 1 st

/-- Shard `i`'s range end: `(i+1)*mid`, except the last shard which runs to
`terms`. -/
def shardEnd (terms threads i : Nat) : Nat :=
  if i + 1 < threads then (i + 1) * (terms / threads) else terms

/-- The triple computed by shard `i`'s `bs_init` call (level `cores_depth`). -/
def shardTriple (terms threads i : Nat) : Triple :=
  bsTriple terms (i * (terms / threads)) (shardEnd terms threads i) (coresDepth threads)

/-- The final triple in shard 0 after binary splitting and reduction; for
term count 0 the triple is set directly to `P=1, Q=0, G=1`. -/
def pipelinePQ (terms threads : Nat) : Triple :=
  if terms = 0 then ⟨1, 0, 1⟩
  else stGet (reduceAll threads ((List.range threads).map (shardTriple terms threads))) 0

/-- The two exact integers entering the precision-conversion stage:
`q + A*p` and `p * (C/D)` (from `mpz_addmul_ui` / `mpz_mul_ui` in `main`). -/
def convPrep (t : Triple) : Int × Int :=
  (t.p * ((C / D : Nat) : Int), t.q + (A : Nat) * t.p)

/-- The conversion-stage input produced by a run. -/
def convInput (terms threads : Nat) : Int × Int := convPrep (pipelinePQ terms threads)

/-! ### The fac-free mirror of `bs` (for evaluation and closed forms)

`bsG` replays the exact-integer part of `bs`, replacing the factored-form
GCD by `Int.gcd` of the two exact integers; the equivalence with `bsF` is
proved below from the factored-twin invariant. -/

/-- The merge step of the fac-free mirror of `bs`. -/
def mkNodeG (terms b level : Nat) (L R : Triple) : Triple :=
  let d : Int := if 4 ≤ level then (Int.gcd R.p L.g : Nat) else 1
  let pj := R.p / d
  let g1 := L.g / d
  ⟨L.p * pj, L.q * pj + R.q * g1, if b < terms then g1 * R.g else g1⟩

/-- Exact-integer mirror of `bs`: identical arithmetic, with the factored
GCD replaced by the numeric GCD of the right child's `p` and the left
child's `g`. -/
def bsG (terms : Nat) : Nat → Nat → Nat → Nat → Triple
  | 0, _, _, _ => ⟨1, 0, 1⟩
  | fuel + 1, a, b, level =>
      if b - a = 1 then ⟨pTerm b, qTerm b, gTerm b⟩
      else mkNodeG terms b level (bsG terms fuel a (bsMid a b) (level + 1))
        (bsG terms fuel (bsMid a b) b (level + 1))

/-- `bsG` packaged like `bsTriple`. -/
def bsGTriple (terms a b level : Nat) : Triple :=
  bsG terms (b - a) a b level

/-- Shard triples of the fac-free mirror. -/
def shardTripleG (terms threads i : Nat) : Triple :=
  bsGTriple terms (i * (terms / threads)) (shardEnd terms threads i) (coresDepth threads)

/-- The pipeline over the fac-free mirror. -/
def pipelineG (terms threads : Nat) : Triple :=
  if terms = 0 then ⟨1, 0, 1⟩
  else stGet (reduceAll threads ((List.range threads).map (shardTripleG terms threads))) 0

/-! ### The retain-G-unconditionally variant (claim C6) -/

/-- The merge step of the retain-G variant: the `b < terms` test is
dropped, `G` is always combined. -/
def mkNodeVar (level : Nat) (L R : BSRet) : BSRet :=
  let red : GcdRet :=
    if 4 ≤ level then fac_remove_gcd R.p R.fp L.g L.fg
    else ⟨R.p, R.fp, L.g, L.fg⟩
  let qj := R.q * red.g
  let fp1 := fac_mul2 L.fp red.fp
  ⟨L.p * red.p, L.q * red.p + qj, red.g * R.g, fp1, fac_mul2 red.fg R.fg⟩

/-- Variant of `bs` that always computes and retains `G`. -/
def bsFVar (sv : SieveMap) (terms : Nat) : Nat → Nat → Nat → Nat → BSRet
  | 0, _, _, _ => ⟨1, 0, 1, [], []⟩
  | fuel + 1, a, b, level =>
      if b - a = 1 then bsBase sv b
      else mkNodeVar level (bsFVar sv terms fuel a (bsMid a b) (level + 1))
        (bsFVar sv terms fuel (bsMid a b) b (level + 1))

/-- Variant `sum` that always multiplies the left shard's `G`, ignoring
`gflag`. -/
def sumStepVar (st : Stacks) (i k : Nat) : Stacks :=
  st.set i
    ⟨(stGet st i).p * (stGet st (i + k)).p,
     (stGet st i).q * (stGet st (i + k)).p + (stGet st (i + k)).q * (stGet st i).g,
     (stGet st i).g * (stGet st (i + k)).g⟩

/-- Inner merge loop of the retain-G variant. -/
def roundInnerVar (threads k : Nat) : Nat → Nat → Stacks → Stacks
  | 0, _, st => st
  | fuel + 1, i, st =>
      if i < threads then
        roundInnerVar threads k fuel (i + 2 * k)
          (if i + k < threads then sumStepVar st i k else st)
      else st

/-- Round loop of the retain-G variant. -/
def roundsLoopVar (threads csize : Nat) : Nat → Nat → Stacks → Stacks
  | 0, _, st => st
  | fuel + 1, k, st =>
      if k < csize then
        roundsLoopVar threads csize fuel (2 * k) (roundInnerVar threads k threads 0 st)
      else st

/-- Shard triples of the retain-G variant. -/
def shardTripleVar (terms threads i : Nat) : Triple :=
  let r := bsFVar (progSieve terms) terms (shardEnd terms threads i - i * (terms / threads))
    (i * (terms / threads)) (shardEnd terms threads i) (coresDepth threads)
  ⟨r.p, r.q, r.g⟩

/-- The pipeline of the retain-G variant. -/
def pipelineVar (terms threads : Nat) : Triple :=
  if terms = 0 then ⟨1, 0, 1⟩
  else stGet (roundsLoopVar threads (2 ^ coresDepth threads) (coresDepth threads + 1) 1
    ((List.range threads).map (shardTripleVar terms threads))) 0

/-! ### Closed forms -/

/-- Pure product closed form `P(a,b) = ∏ p(j)` over the term range. -/
def PP (a b : Nat) : Int := ∏ j ∈ Finset.Ico a b, pTerm (j + 1)

/-- Pure product closed form `G(a,b) = ∏ g(j)`. -/
def GG (a b : Nat) : Int := ∏ j ∈ Finset.Ico a b, gTerm (j + 1)

/-- Closed form `Q(a,b) = Σ q(k) G(a,k-1) P(k,b)` of the accumulated sum. -/
def QQ (a b : Nat) : Int :=
  ∑ j ∈ Finset.Ico a b, qTerm (j + 1) * GG a j * PP (j + 1) b

/-! ### Argument handling of `main` (claim C10) -/

/-- Digit clamping: `if (digits > MAX_DIGITS) digits = MAX_DIGITS`. -/
def clampDigits (digits : Nat) : Nat :=
  if digits > MAX_DIGITS then MAX_DIGITS else digits

/-- The thread-clamping chain of `main` (C `int` threads modelled as `Int`,
`uint_t` terms as `Nat`):
`threads < 1 || (terms <= 0 && threads > 1)` resets to 1, else
`terms > 0 && terms < threads && threads <= ncpus` resets to `terms`, else
`threads > ncpus` resets to `ncpus`. -/
def clampThreads (terms : Nat) (threads ncpus : Int) : Int :=
  if threads < 1 ∨ (terms = 0 ∧ 1 < threads) then 1
  else if 0 < terms ∧ (terms : Int) < threads ∧ threads ≤ ncpus then (terms : Int)
  else if ncpus < threads then ncpus
  else threads

/-- Exit status of an invocation with no arguments (`argc == 1` prints the
synopsis and calls `exit(1)`); `none` means execution proceeds. -/
def argcExit (argc : Nat) : Option Nat :=
  if argc ≤ 1 then some 1 else none

/-! ### Specification predicates for the binary splitter and reduction -/

/-- The factored-twin invariant carried by every `bs` return value (claim
C7): `fp` represents the odd part of `p` (the sieve holds odd numbers only,
so the power of two of `p` is never represented), and `fg` represents `g`
exactly; both twins stay well-formed and both represented values are odd. -/
abbrev BSInv (r : BSRet) : Prop :=
  (∃ k : Nat, r.p = ((2 ^ k * evalFac r.fp : Nat) : Int)) ∧
  FacValid r.fp ∧ Odd (evalFac r.fp) ∧
  r.g = ((evalFac r.fg : Nat) : Int) ∧ FacValid r.fg ∧ Odd (evalFac r.fg)

/-- A triple equal to the closed forms divided by one positive integer; the
`G` clause applies only while the range end is short of `terms`. -/
abbrev Scaled (terms a b : Nat) (t : Triple) : Prop :=
  ∃ dd : Int, 0 < dd ∧ t.p * dd = PP a b ∧ t.q * dd = QQ a b ∧
    (b < terms → t.g * dd = GG a b)

/-- End of the merged term range owned by shard `i` once reduction groups
have size `k`. -/
def groupEnd (terms threads k i : Nat) : Nat :=
  if i + k < threads then (i + k) * (terms / threads) else terms

/-- Stack invariant between reduction rounds: every group-leader slot holds
a scaled triple for its merged range. -/
abbrev StacksOk (terms threads k : Nat) (st : Stacks) : Prop :=
  st.length = threads ∧
  ∀ i, i < threads → i % k = 0 →
    Scaled terms (i * (terms / threads)) (groupEnd terms threads k i) (stGet st i)

/-- Paired-stack invariant for the retain-G variant (claim C6): group
leaders agree on `P` and `Q`, and on `G` while the group end is short of
`terms`. -/
abbrev StacksEqv (terms threads k : Nat) (stv st : Stacks) : Prop :=
  stv.length = threads ∧ st.length = threads ∧
  ∀ i, i < threads → i % k = 0 →
    (stGet stv i).p = (stGet st i).p ∧ (stGet stv i).q = (stGet st i).q ∧
    (groupEnd terms threads k i < terms → (stGet stv i).g = (stGet st i).g)

/-! ### Specification predicates for the sieve proofs -/

/-- Slot `v/2` holds the intended factorisation step for odd `v ≥ 3`: the
smallest prime factor `v.minFac`, its multiplicity, and the slot of the
cofactor. -/
def EntryOk (s : SieveMap) (v : Nat) : Prop :=
  ∃ e c, 0 < e ∧ v = v.minFac ^ e * c ∧ ¬ v.minFac ∣ c ∧
    svGet s (v / 2) = ⟨v.minFac, e, c / 2⟩

/-- Invariant of the outer loop of `build_sieve` before processing odd `i`:
entries whose smallest factor was already processed are final, the rest are
still zero. -/
def SieveInv (n i : Nat) (s : SieveMap) : Prop :=
  s.length = n / 2 ∧
  ∀ v, Odd v → 3 ≤ v → v ≤ n →
    (v.minFac < i → EntryOk s v) ∧ (i ≤ v.minFac → svGet s (v / 2) = ⟨0, 0, 0⟩)

/-- Invariant of the inner marking loop for prime `i`, next multiple `j0`. -/
def InnerInv (n i j0 : Nat) (s : SieveMap) : Prop :=
  s.length = n / 2 ∧
  ∀ v, Odd v → 3 ≤ v → v ≤ n →
    ((v.minFac < i ∨ v = i) → EntryOk s v) ∧
    (v.minFac = i ∧ v ≠ i ∧ v < j0 → EntryOk s v) ∧
    (i ≤ v.minFac ∧ v ≠ i ∧ ¬(v.minFac = i ∧ v < j0) → svGet s (v / 2) = ⟨0, 0, 0⟩)

/-- A fully built sieve: every odd slot up to the bound is final. -/
def SieveOk (n : Nat) (s : SieveMap) : Prop :=
  ∀ v, Odd v → 3 ≤ v → v ≤ n → EntryOk s v

/-! ## Basic slot lemmas for the array models -/

theorem length_svSet (s : SieveMap) (idx : Nat) (e : SieveEntry) :
    (svSet s idx e).length = s.length := by
  simp [svSet]

theorem svGet_set_self (s : SieveMap) (idx : Nat) (e : SieveEntry)
    (h : idx < s.length) : svGet (svSet s idx e) idx = e := by
  simp [svGet, svSet, List.getD_eq_getElem?_getD, List.getElem?_set, h]

theorem svGet_set_ne (s : SieveMap) (idx j : Nat) (e : SieveEntry)
    (h : j ≠ idx) : svGet (svSet s idx e) j = svGet s j := by
  simp [svGet, svSet, List.getD_eq_getElem?_getD, List.getElem?_set, (Ne.symm h)]

/-! ## Factored-integer algebra -/

theorem evalFac_nil : evalFac [] = 1 := rfl

theorem evalFac_cons (x : Nat × Nat) (t : FacList) :
    evalFac (x :: t) = x.1 ^ x.2 * evalFac t := rfl

theorem evalFac_pos (l : FacList) (h : ∀ x ∈ l, 0 < x.1) : 0 < evalFac l := by
  induction l with
  | nil => exact Nat.one_pos
  | cons x t ih =>
      rw [evalFac_cons]
      exact Nat.mul_pos (Nat.pos_pow_of_pos _ (h x (List.mem_cons_self x t)))
        (ih (fun y hy => h y (List.mem_cons_of_mem x hy)))

/-- Every member of a sorted merge is a member of an input, or combines
members of both inputs with the same factor and summed exponents. -/
theorem fac_mul2_mem {f g : FacList} {x : Nat × Nat} (hx : x ∈ fac_mul2 f g) :
    x ∈ f ∨ x ∈ g ∨ ∃ ef eg, (x.1, ef) ∈ f ∧ (x.1, eg) ∈ g ∧ x.2 = ef + eg := by
  induction f, g using fac_mul2.induct with
  | case1 g =>
      rw [fac_mul2] at hx
      exact Or.inr (Or.inl hx)
  | case2 f hne =>
      rw [fac_mul2] at hx
      · exact Or.inl hx
      · cases f with
        | nil => exact absurd rfl hne
        | cons a t => exact List.cons_ne_nil a t
  | case3 ef f pg eg g ih =>
      rw [fac_mul2, if_pos rfl] at hx
      rcases List.mem_cons.mp hx with h | h
      · subst h
        exact Or.inr (Or.inr ⟨ef, eg, List.mem_cons_self _ _, List.mem_cons_self _ _, rfl⟩)
      · rcases ih h with h1 | h1 | ⟨e1, e2, h1, h2, h3⟩
        · exact Or.inl (List.mem_cons_of_mem _ h1)
        · exact Or.inr (Or.inl (List.mem_cons_of_mem _ h1))
        · exact Or.inr (Or.inr ⟨e1, e2, List.mem_cons_of_mem _ h1, List.mem_cons_of_mem _ h2, h3⟩)
  | case4 pf ef f pg eg g hne hlt ih =>
      rw [fac_mul2, if_neg hne, if_pos hlt] at hx
      rcases List.mem_cons.mp hx with h | h
      · exact Or.inl (h ▸ List.mem_cons_self _ _)
      · rcases ih h with h1 | h1 | ⟨e1, e2, h1, h2, h3⟩
        · exact Or.inl (List.mem_cons_of_mem _ h1)
        · exact Or.inr (Or.inl h1)
        · exact Or.inr (Or.inr ⟨e1, e2, List.mem_cons_of_mem _ h1, h2, h3⟩)
  | case5 pf ef f pg eg g hne hnlt ih =>
      rw [fac_mul2, if_neg hne, if_neg hnlt] at hx
      rcases List.mem_cons.mp hx with h | h
      · exact Or.inr (Or.inl (h ▸ List.mem_cons_self _ _))
      · rcases ih h with h1 | h1 | ⟨e1, e2, h1, h2, h3⟩
        · exact Or.inl h1
        · exact Or.inr (Or.inl (List.mem_cons_of_mem _ h1))
        · exact Or.inr (Or.inr ⟨e1, e2, h1, List.mem_cons_of_mem _ h2, h3⟩)

/-- The sorted merge multiplies represented values. -/
theorem fac_mul2_eval (f g : FacList) :
    evalFac (fac_mul2 f g) = evalFac f * evalFac g := by
  induction f, g using fac_mul2.induct with
  | case1 g => rw [fac_mul2, evalFac_nil, Nat.one_mul]
  | case2 f hne =>
      rw [fac_mul2, evalFac_nil, Nat.mul_one]
      cases f with
      | nil => exact absurd rfl hne
      | cons a t => exact List.cons_ne_nil a t
  | case3 ef f pg eg g ih =>
      rw [fac_mul2, if_pos rfl, evalFac_cons, evalFac_cons, evalFac_cons, ih]
      simp only [pow_add]
      ring
  | case4 pf ef f pg eg g hne hlt ih =>
      rw [fac_mul2, if_neg hne, if_pos hlt, evalFac_cons, evalFac_cons, ih, evalFac_cons]
      ring
  | case5 pf ef f pg eg g hne hnlt ih =>
      rw [fac_mul2, if_neg hne, if_neg hnlt, evalFac_cons, evalFac_cons, ih,
        evalFac_cons, evalFac_cons]
      ring

/-- The sorted merge is commutative as a sequence. -/
theorem fac_mul2_comm (f g : FacList) : fac_mul2 f g = fac_mul2 g f := by
  induction f, g using fac_mul2.induct with
  | case1 g =>
      cases g with
      | nil => rfl
      | cons a t =>
          rw [fac_mul2, fac_mul2]
          exact fun h => List.noConfusion h
  | case2 f hne =>
      cases f with
      | nil => exact absurd rfl hne
      | cons a t =>
          rw [fac_mul2, fac_mul2]
          exact fun h => List.noConfusion h
  | case3 ef f pg eg g ih =>
      rw [fac_mul2, if_pos rfl, fac_mul2, if_pos rfl, ih, Nat.add_comm]
  | case4 pf ef f pg eg g hne hlt ih =>
      rw [fac_mul2, if_neg hne, if_pos hlt, fac_mul2,
        if_neg (Ne.symm hne), if_neg (by omega), ih]
  | case5 pf ef f pg eg g hne hnlt ih =>
      rw [fac_mul2, if_neg hne, if_neg hnlt, fac_mul2,
        if_neg (Ne.symm hne), if_pos (show pg < pf by omega), ih]

/-- The sorted merge preserves strictly increasing factors. -/
theorem fac_mul2_pairwise {f g : FacList}
    (hf : List.Pairwise (fun x y : Nat × Nat => x.1 < y.1) f)
    (hg : List.Pairwise (fun x y : Nat × Nat => x.1 < y.1) g) :
    List.Pairwise (fun x y : Nat × Nat => x.1 < y.1) (fac_mul2 f g) := by
  induction f, g using fac_mul2.induct with
  | case1 g => rw [fac_mul2]; exact hg
  | case2 f hne =>
      rw [fac_mul2]
      · exact hf
      · cases f with
        | nil => exact absurd rfl hne
        | cons a t => exact List.cons_ne_nil a t
  | case3 ef f pg eg g ih =>
      rw [fac_mul2, if_pos rfl]
      rcases List.pairwise_cons.mp hf with ⟨hf1, hf2⟩
      rcases List.pairwise_cons.mp hg with ⟨hg1, hg2⟩
      refine List.pairwise_cons.mpr ⟨?_, ih hf2 hg2⟩
      intro y hy
      rcases fac_mul2_mem hy with h | h | ⟨e1, _, h1, _, _⟩
      · exact hf1 y h
      · exact hg1 y h
      · exact hf1 (y.1, e1) h1
  | case4 pf ef f pg eg g hne hlt ih =>
      rw [fac_mul2, if_neg hne, if_pos hlt]
      rcases List.pairwise_cons.mp hf with ⟨hf1, hf2⟩
      refine List.pairwise_cons.mpr ⟨?_, ih hf2 hg⟩
      intro y hy
      rcases fac_mul2_mem hy with h | h | ⟨e1, _, h1, _, _⟩
      · exact hf1 y h
      · rcases List.mem_cons.mp h with h2 | h2
        · rw [h2]; exact hlt
        · exact lt_trans hlt ((List.pairwise_cons.mp hg).1 y h2)
      · exact hf1 (y.1, e1) h1
  | case5 pf ef f pg eg g hne hnlt ih =>
      rw [fac_mul2, if_neg hne, if_neg hnlt]
      rcases List.pairwise_cons.mp hg with ⟨hg1, hg2⟩
      have hgf : pg < pf := by omega
      refine List.pairwise_cons.mpr ⟨?_, ih hf hg2⟩
      intro y hy
      rcases fac_mul2_mem hy with h | h | ⟨_, e2, _, h2, _⟩
      · rcases List.mem_cons.mp h with h2 | h2
        · rw [h2]; exact hgf
        · exact lt_trans hgf ((List.pairwise_cons.mp hf).1 y h2)
      · exact hg1 y h
      · exact hg1 (y.1, e2) h2

/-- The sorted merge of two well-formed factored integers is well-formed. -/
theorem fac_mul2_valid {f g : FacList} (hf : FacValid f) (hg : FacValid g) :
    FacValid (fac_mul2 f g) := by
  refine ⟨fac_mul2_pairwise hf.1 hg.1, ?_⟩
  intro x hx
  rcases fac_mul2_mem hx with h | h | ⟨e1, e2, h1, h2, h3⟩
  · exact hf.2 x h
  · exact hg.2 x h
  · refine ⟨(hf.2 (x.1, e1) h1).1, ?_⟩
    have := (hf.2 (x.1, e1) h1).2
    omega

/-! ## The GCD matching pass -/

theorem facGcdSub_fst_left (f g : FacList) :
    (facGcdSub f g).1.map Prod.fst = f.map Prod.fst := by
  induction f, g using facGcdSub.induct with
  | case1 g => rw [facGcdSub]
  | case2 f hne =>
      rw [facGcdSub]
      · cases f with
        | nil => exact absurd rfl hne
        | cons a t => exact List.cons_ne_nil a t
  | case3 ef f pg eg g ih => rw [facGcdSub, if_pos rfl]; simpa using ih
  | case4 pf ef f pg eg g hne hlt ih =>
      rw [facGcdSub, if_neg hne, if_pos hlt]; simpa using ih
  | case5 pf ef f pg eg g hne hnlt ih =>
      rw [facGcdSub, if_neg hne, if_neg hnlt]; simpa using ih

theorem facGcdSub_fst_right (f g : FacList) :
    (facGcdSub f g).2.1.map Prod.fst = g.map Prod.fst := by
  induction f, g using facGcdSub.induct with
  | case1 g => rw [facGcdSub]
  | case2 f hne =>
      rw [facGcdSub]
      · cases f with
        | nil => exact absurd rfl hne
        | cons a t => exact List.cons_ne_nil a t
  | case3 ef f pg eg g ih => rw [facGcdSub, if_pos rfl]; simpa using ih
  | case4 pf ef f pg eg g hne hlt ih =>
      rw [facGcdSub, if_neg hne, if_pos hlt]; simpa using ih
  | case5 pf ef f pg eg g hne hnlt ih =>
      rw [facGcdSub, if_neg hne, if_neg hnlt]; simpa using ih

theorem facGcdSub_eval_left (f g : FacList) :
    evalFac (facGcdSub f g).1 * evalFac (facGcdSub f g).2.2 = evalFac f := by
  induction f, g using facGcdSub.induct with
  | case1 g => rw [facGcdSub]; rfl
  | case2 f hne =>
      rw [facGcdSub]
      · rw [evalFac_nil, Nat.mul_one]
      · cases f with
        | nil => exact absurd rfl hne
        | cons a t => exact List.cons_ne_nil a t
  | case3 ef f pg eg g ih =>
      rw [facGcdSub, if_pos rfl]
      simp only [evalFac_cons]
      calc pg ^ (ef - min ef eg) * evalFac (facGcdSub f g).1 *
            (pg ^ min ef eg * evalFac (facGcdSub f g).2.2)
          = pg ^ (ef - min ef eg) * pg ^ min ef eg *
            (evalFac (facGcdSub f g).1 * evalFac (facGcdSub f g).2.2) := by ring
        _ = pg ^ ef * evalFac f := by
            rw [← pow_add, Nat.sub_add_cancel (Nat.min_le_left ef eg), ih]
  | case4 pf ef f pg eg g hne hlt ih =>
      rw [facGcdSub, if_neg hne, if_pos hlt]
      simp only [evalFac_cons]
      calc pf ^ ef * evalFac (facGcdSub f ((pg, eg) :: g)).1 *
            evalFac (facGcdSub f ((pg, eg) :: g)).2.2
          = pf ^ ef * (evalFac (facGcdSub f ((pg, eg) :: g)).1 *
            evalFac (facGcdSub f ((pg, eg) :: g)).2.2) := by ring
        _ = pf ^ ef * evalFac f := by rw [ih]
  | case5 pf ef f pg eg g hne hnlt ih =>
      rw [facGcdSub, if_neg hne, if_neg hnlt]
      exact ih

theorem facGcdSub_eval_right (f g : FacList) :
    evalFac (facGcdSub f g).2.1 * evalFac (facGcdSub f g).2.2 = evalFac g := by
  induction f, g using facGcdSub.induct with
  | case1 g => rw [facGcdSub]; rw [evalFac_nil, Nat.mul_one]
  | case2 f hne =>
      rw [facGcdSub]
      · rfl
      · cases f with
        | nil => exact absurd rfl hne
        | cons a t => exact List.cons_ne_nil a t
  | case3 ef f pg eg g ih =>
      rw [facGcdSub, if_pos rfl]
      simp only [evalFac_cons]
      calc pg ^ (eg - min ef eg) * evalFac (facGcdSub f g).2.1 *
            (pg ^ min ef eg * evalFac (facGcdSub f g).2.2)
          = pg ^ (eg - min ef eg) * pg ^ min ef eg *
            (evalFac (facGcdSub f g).2.1 * evalFac (facGcdSub f g).2.2) := by ring
        _ = pg ^ eg * evalFac g := by
            rw [← pow_add, Nat.sub_add_cancel (Nat.min_le_right ef eg), ih]
  | case4 pf ef f pg eg g hne hlt ih =>
      rw [facGcdSub, if_neg hne, if_pos hlt]
      exact ih
  | case5 pf ef f pg eg g hne hnlt ih =>
      rw [facGcdSub, if_neg hne, if_neg hnlt]
      simp only [evalFac_cons]
      calc pg ^ eg * evalFac (facGcdSub ((pf, ef) :: f) g).2.1 *
            evalFac (facGcdSub ((pf, ef) :: f) g).2.2
          = pg ^ eg * (evalFac (facGcdSub ((pf, ef) :: f) g).2.1 *
            evalFac (facGcdSub ((pf, ef) :: f) g).2.2) := by ring
        _ = pg ^ eg * evalFac g := by rw [ih]

/-- Members of the shared-minimum list pair a factor occurring in both inputs
with the minimum of its two exponents. -/
theorem facGcdSub_mins_mem {f g : FacList} {x : Nat × Nat}
    (hx : x ∈ (facGcdSub f g).2.2) :
    ∃ ef eg, (x.1, ef) ∈ f ∧ (x.1, eg) ∈ g ∧ x.2 = min ef eg := by
  induction f, g using facGcdSub.induct with
  | case1 g => rw [facGcdSub] at hx; exact absurd hx (List.not_mem_nil x)
  | case2 f hne =>
      rw [facGcdSub] at hx
      · exact absurd hx (List.not_mem_nil x)
      · cases f with
        | nil => exact absurd rfl hne
        | cons a t => exact List.cons_ne_nil a t
  | case3 ef f pg eg g ih =>
      rw [facGcdSub, if_pos rfl] at hx
      rcases List.mem_cons.mp hx with h | h
      · subst h
        exact ⟨ef, eg, List.mem_cons_self _ _, List.mem_cons_self _ _, rfl⟩
      · rcases ih h with ⟨e1, e2, h1, h2, h3⟩
        exact ⟨e1, e2, List.mem_cons_of_mem _ h1, List.mem_cons_of_mem _ h2, h3⟩
  | case4 pf ef f pg eg g hne hlt ih =>
      rw [facGcdSub, if_neg hne, if_pos hlt] at hx
      rcases ih hx with ⟨e1, e2, h1, h2, h3⟩
      exact ⟨e1, e2, List.mem_cons_of_mem _ h1, h2, h3⟩
  | case5 pf ef f pg eg g hne hnlt ih =>
      rw [facGcdSub, if_neg hne, if_neg hnlt] at hx
      rcases ih hx with ⟨e1, e2, h1, h2, h3⟩
      exact ⟨e1, e2, h1, List.mem_cons_of_mem _ h2, h3⟩

/-- A factor occurring in both inputs occurs in the shared-minimum list. -/
theorem facGcdSub_mins_shared {f g : FacList} {q ef eg : Nat}
    (hf : List.Pairwise (fun x y : Nat × Nat => x.1 < y.1) f)
    (hg : List.Pairwise (fun x y : Nat × Nat => x.1 < y.1) g)
    (h1 : (q, ef) ∈ f) (h2 : (q, eg) ∈ g) :
    ∃ c, (q, c) ∈ (facGcdSub f g).2.2 := by
  induction f, g using facGcdSub.induct with
  | case1 g => exact absurd h1 (List.not_mem_nil _)
  | case2 f hne => exact absurd h2 (List.not_mem_nil _)
  | case3 e1 f pg e2 g ih =>
      rcases List.mem_cons.mp h1 with h | h
      · have hq : q = pg := congrArg Prod.fst h
        subst hq
        refine ⟨min e1 e2, ?_⟩
        rw [facGcdSub, if_pos rfl]
        exact List.mem_cons_self _ _
      · rcases List.mem_cons.mp h2 with h' | h'
        · have hq : q = pg := congrArg Prod.fst h'
          have hlt2 : pg < q := (List.pairwise_cons.mp hf).1 _ h
          omega
        · rcases ih (List.pairwise_cons.mp hf).2 (List.pairwise_cons.mp hg).2 h h' with ⟨c, hc⟩
          refine ⟨c, ?_⟩
          rw [facGcdSub, if_pos rfl]
          exact List.mem_cons_of_mem _ hc
  | case4 pf e1 f pg e2 g hne hlt ih =>
      rcases List.mem_cons.mp h1 with h | h
      · have hq : q = pf := congrArg Prod.fst h
        rcases List.mem_cons.mp h2 with h' | h'
        · have hq2 : q = pg := congrArg Prod.fst h'
          omega
        · have hlt2 : pg < q := (List.pairwise_cons.mp hg).1 _ h'
          omega
      · rcases ih (List.pairwise_cons.mp hf).2 hg h h2 with ⟨c, hc⟩
        refine ⟨c, ?_⟩
        rw [facGcdSub, if_neg hne, if_pos hlt]
        exact hc
  | case5 pf e1 f pg e2 g hne hnlt ih =>
      rcases List.mem_cons.mp h2 with h | h
      · have hq : q = pg := congrArg Prod.fst h
        rcases List.mem_cons.mp h1 with h' | h'
        · have hq2 : q = pf := congrArg Prod.fst h'
          omega
        · have hlt2 : pf < q := (List.pairwise_cons.mp hf).1 _ h'
          omega
      · rcases ih hf (List.pairwise_cons.mp hg).2 h1 h with ⟨c, hc⟩
        refine ⟨c, ?_⟩
        rw [facGcdSub, if_neg hne, if_neg hnlt]
        exact hc

theorem facValid_cons {x : Nat × Nat} {t : FacList} :
    FacValid (x :: t) ↔
      (∀ y ∈ t, x.1 < y.1) ∧ Nat.Prime x.1 ∧ 0 < x.2 ∧ FacValid t := by
  constructor
  · intro ⟨hp, hm⟩
    rcases List.pairwise_cons.mp hp with ⟨h1, h2⟩
    exact ⟨h1, (hm x (List.mem_cons_self _ _)).1, (hm x (List.mem_cons_self _ _)).2,
      h2, fun y hy => hm y (List.mem_cons_of_mem _ hy)⟩
  · intro ⟨h1, h2, h3, h4⟩
    refine ⟨List.pairwise_cons.mpr ⟨h1, h4.1⟩, ?_⟩
    intro y hy
    rcases List.mem_cons.mp hy with h | h
    · exact h ▸ ⟨h2, h3⟩
    · exact h4.2 y h

theorem not_dvd_evalFac {p : Nat} (hp : p.Prime) {l : FacList}
    (h : ∀ x ∈ l, Nat.Prime x.1 ∧ p < x.1) : ¬ p ∣ evalFac l := by
  induction l with
  | nil => exact Nat.Prime.not_dvd_one hp
  | cons x t ih =>
      rw [evalFac_cons]
      intro hd
      rcases (Nat.Prime.dvd_mul hp).mp hd with h1 | h1
      · have h2 : p ∣ x.1 := hp.dvd_of_dvd_pow h1
        have h3 : p = x.1 :=
          (Nat.prime_dvd_prime_iff_eq hp (h x (List.mem_cons_self _ _)).1).mp h2
        have := (h x (List.mem_cons_self _ _)).2
        omega
      · exact ih (fun y hy => h y (List.mem_cons_of_mem _ hy)) h1

theorem coprime_pow_evalFac {p e : Nat} (hp : p.Prime) {l : FacList}
    (h : ∀ x ∈ l, Nat.Prime x.1 ∧ p < x.1) : Nat.Coprime (p ^ e) (evalFac l) :=
  Nat.Coprime.pow_left e ((Nat.Prime.coprime_iff_not_dvd hp).mpr (not_dvd_evalFac hp h))

/-- The shared-minimum list represents the GCD of the two represented
values. -/
theorem facGcdSub_mins_gcd : ∀ {f g : FacList}, FacValid f → FacValid g →
    evalFac (facGcdSub f g).2.2 = Nat.gcd (evalFac f) (evalFac g) := by
  intro f g
  induction f, g using facGcdSub.induct with
  | case1 g =>
      intro _ _
      rw [facGcdSub, evalFac_nil, Nat.gcd_one_left]
  | case2 f hne =>
      intro _ _
      rw [facGcdSub]
      · rw [evalFac_nil, Nat.gcd_one_right]
      · cases f with
        | nil => exact absurd rfl hne
        | cons a t => exact List.cons_ne_nil a t
  | case3 e1 f pg e2 g ih =>
      intro hf hg
      rcases facValid_cons.mp hf with ⟨hb1, hp1, _, hv1⟩
      rcases facValid_cons.mp hg with ⟨hb2, _, _, hv2⟩
      rw [facGcdSub, if_pos rfl]
      show evalFac ((pg, min e1 e2) :: (facGcdSub f g).2.2) = _
      rw [evalFac_cons, evalFac_cons, evalFac_cons, ih hv1 hv2]
      have hf1 : ∀ x ∈ f, Nat.Prime x.1 ∧ pg < x.1 :=
        fun x hx => ⟨(hv1.2 x hx).1, hb1 x hx⟩
      have hg1 : ∀ x ∈ g, Nat.Prime x.1 ∧ pg < x.1 :=
        fun x hx => ⟨(hv2.2 x hx).1, hb2 x hx⟩
      have hsplit1 : pg ^ e1 = pg ^ min e1 e2 * pg ^ (e1 - min e1 e2) := by
        rw [← pow_add]
        congr 1
        omega
      have hsplit2 : pg ^ e2 = pg ^ min e1 e2 * pg ^ (e2 - min e1 e2) := by
        rw [← pow_add]
        congr 1
        omega
      rw [hsplit1, hsplit2, Nat.mul_assoc, Nat.mul_assoc, Nat.gcd_mul_left]
      congr 1
      rcases Nat.le_total e1 e2 with hle | hle
      · have : e1 - min e1 e2 = 0 := by omega
        rw [this, pow_zero, Nat.one_mul,
          Nat.Coprime.gcd_mul_left_cancel_right _ (coprime_pow_evalFac hp1 hf1)]
      · have : e2 - min e1 e2 = 0 := by omega
        rw [this, pow_zero, Nat.one_mul,
          Nat.Coprime.gcd_mul_left_cancel _ (coprime_pow_evalFac hp1 hg1)]
  | case4 pf e1 f pg e2 g hne hlt ih =>
      intro hf hg
      rcases facValid_cons.mp hf with ⟨_, hp1, _, hv1⟩
      rcases facValid_cons.mp hg with ⟨hb2, hp2, _, hv2⟩
      rw [facGcdSub, if_neg hne, if_pos hlt]
      show evalFac (facGcdSub f ((pg, e2) :: g)).2.2 = _
      rw [ih hv1 hg]
      have hgall : ∀ x ∈ (pg, e2) :: g, Nat.Prime x.1 ∧ pf < x.1 := by
        intro x hx
        rcases List.mem_cons.mp hx with h | h
        · exact h ▸ ⟨hp2, hlt⟩
        · exact ⟨(hv2.2 x h).1, lt_trans hlt (hb2 x h)⟩
      rw [show evalFac ((pf, e1) :: f) = pf ^ e1 * evalFac f from evalFac_cons _ _]
      exact (Nat.Coprime.gcd_mul_left_cancel _ (coprime_pow_evalFac hp1 hgall)).symm
  | case5 pf e1 f pg e2 g hne hnlt ih =>
      intro hf hg
      rcases facValid_cons.mp hf with ⟨hb1, hp1, _, hv1⟩
      rcases facValid_cons.mp hg with ⟨_, hp2, _, hv2⟩
      rw [facGcdSub, if_neg hne, if_neg hnlt]
      show evalFac (facGcdSub ((pf, e1) :: f) g).2.2 = _
      rw [ih hf hv2]
      have hfall : ∀ x ∈ (pf, e1) :: f, Nat.Prime x.1 ∧ pg < x.1 := by
        intro x hx
        rcases List.mem_cons.mp hx with h | h
        · exact h ▸ ⟨hp1, by omega⟩
        · exact ⟨(hv1.2 x h).1, lt_trans (by omega) (hb1 x h)⟩
      rw [show evalFac ((pg, e2) :: g) = pg ^ e2 * evalFac g from evalFac_cons _ _]
      exact (Nat.Coprime.gcd_mul_left_cancel_right _ (coprime_pow_evalFac hp2 hfall)).symm

/-- The shared-minimum list's factors form a sublist of the left input's
factors. -/
theorem facGcdSub_mins_fst_sublist (f g : FacList) :
    ((facGcdSub f g).2.2.map Prod.fst).Sublist (f.map Prod.fst) := by
  induction f, g using facGcdSub.induct with
  | case1 g => rw [facGcdSub]
  | case2 f hne =>
      rw [facGcdSub]
      · exact List.nil_sublist _
      · cases f with
        | nil => exact absurd rfl hne
        | cons a t => exact List.cons_ne_nil a t
  | case3 e1 f pg e2 g ih =>
      rw [facGcdSub, if_pos rfl]
      exact List.Sublist.cons₂ pg ih
  | case4 pf e1 f pg e2 g hne hlt ih =>
      rw [facGcdSub, if_neg hne, if_pos hlt]
      exact List.Sublist.cons pf ih
  | case5 pf e1 f pg e2 g hne hnlt ih =>
      rw [facGcdSub, if_neg hne, if_neg hnlt]
      exact ih

/-! ## Compaction -/

theorem evalFac_compact (l : FacList) : evalFac (fac_compact l) = evalFac l := by
  induction l with
  | nil => rfl
  | cons x t ih =>
      rw [fac_compact, List.filter_cons]
      split
      · rw [fac_compact] at ih
        rw [evalFac_cons, evalFac_cons, ih]
      · rename_i hx
        have hx0 : x.2 = 0 := by
          by_contra h
          exact hx (by simpa using Nat.pos_of_ne_zero h)
        rw [fac_compact] at ih
        rw [evalFac_cons, ih, hx0, pow_zero, Nat.one_mul]

theorem mem_fac_compact {l : FacList} {x : Nat × Nat} :
    x ∈ fac_compact l ↔ x ∈ l ∧ 0 < x.2 := by
  simp [fac_compact, List.mem_filter]

theorem fac_compact_valid {l : FacList}
    (hp : List.Pairwise (fun x y : Nat × Nat => x.1 < y.1) l)
    (hpr : ∀ x ∈ l, Nat.Prime x.1) : FacValid (fac_compact l) :=
  ⟨hp.filter _, fun x hx =>
    ⟨hpr x (mem_fac_compact.mp hx).1, (mem_fac_compact.mp hx).2⟩⟩

/-- A member of the subtracted left output carries a factor of the left
input. -/
theorem facGcdSub_left_fst_mem {f g : FacList} {x : Nat × Nat}
    (hx : x ∈ (facGcdSub f g).1) : x.1 ∈ f.map Prod.fst := by
  have h1 : x.1 ∈ (facGcdSub f g).1.map Prod.fst := List.mem_map_of_mem Prod.fst hx
  rwa [facGcdSub_fst_left] at h1

/-- A member of the subtracted right output carries a factor of the right
input. -/
theorem facGcdSub_right_fst_mem {f g : FacList} {x : Nat × Nat}
    (hx : x ∈ (facGcdSub f g).2.1) : x.1 ∈ g.map Prod.fst := by
  have h1 : x.1 ∈ (facGcdSub f g).2.1.map Prod.fst := List.mem_map_of_mem Prod.fst hx
  rwa [facGcdSub_fst_right] at h1

/-- After subtracting the shared minimum exponents and compacting, the two
outputs share no factor. -/
theorem facGcdSub_compact_disjoint : ∀ {f g : FacList}, FacValid f → FacValid g →
    ∀ x ∈ fac_compact (facGcdSub f g).1, ∀ y ∈ fac_compact (facGcdSub f g).2.1,
      x.1 ≠ y.1 := by
  intro f g
  induction f, g using facGcdSub.induct with
  | case1 g =>
      intro _ _ x hx
      rw [facGcdSub] at hx
      exact absurd (mem_fac_compact.mp hx).1 (List.not_mem_nil x)
  | case2 f hne =>
      intro _ _ x _ y hy
      rw [facGcdSub] at hy
      · exact absurd (mem_fac_compact.mp hy).1 (List.not_mem_nil y)
      · cases f with
        | nil => exact absurd rfl hne
        | cons a t => exact List.cons_ne_nil a t
  | case3 e1 f pg e2 g ih =>
      intro hf hg x hx y hy
      rcases facValid_cons.mp hf with ⟨hb1, _, _, hv1⟩
      rcases facValid_cons.mp hg with ⟨hb2, _, _, hv2⟩
      rw [facGcdSub, if_pos rfl] at hx hy
      have hx' := mem_fac_compact.mp hx
      have hy' := mem_fac_compact.mp hy
      rcases List.mem_cons.mp hx'.1 with h1 | h1 <;>
        rcases List.mem_cons.mp hy'.1 with h2 | h2
      · have e1c : x.2 = e1 - min e1 e2 := congrArg Prod.snd h1
        have e2c : y.2 = e2 - min e1 e2 := congrArg Prod.snd h2
        have := hx'.2
        have := hy'.2
        omega
      · have hx1 : x.1 = pg := congrArg Prod.fst h1
        have hy1 : y.1 ∈ g.map Prod.fst := facGcdSub_right_fst_mem h2
        rcases List.mem_map.mp hy1 with ⟨z, hz, hz1⟩
        have := hb2 z hz
        omega
      · have hy1 : y.1 = pg := congrArg Prod.fst h2
        have hx1 : x.1 ∈ f.map Prod.fst := facGcdSub_left_fst_mem h1
        rcases List.mem_map.mp hx1 with ⟨z, hz, hz1⟩
        have := hb1 z hz
        omega
      · exact ih hv1 hv2 x (mem_fac_compact.mpr ⟨h1, hx'.2⟩) y
          (mem_fac_compact.mpr ⟨h2, hy'.2⟩)
  | case4 pf e1 f pg e2 g hne hlt ih =>
      intro hf hg x hx y hy
      rcases facValid_cons.mp hf with ⟨hb1, _, _, hv1⟩
      rcases facValid_cons.mp hg with ⟨hb2, _, _, hv2⟩
      rw [facGcdSub, if_neg hne, if_pos hlt] at hx hy
      have hx' := mem_fac_compact.mp hx
      have hy' := mem_fac_compact.mp hy
      have hy1 : y.1 ∈ ((pg, e2) :: g).map Prod.fst := facGcdSub_right_fst_mem hy'.1
      rcases List.mem_cons.mp hx'.1 with h1 | h1
      · have hx1 : x.1 = pf := congrArg Prod.fst h1
        rcases List.mem_map.mp hy1 with ⟨z, hz, hz1⟩
        rcases List.mem_cons.mp hz with h3 | h3
        · subst h3
          simp only at hz1
          omega
        · have := hb2 z h3
          simp only at hz1 this
          omega
      · exact ih hv1 hg x (mem_fac_compact.mpr ⟨h1, hx'.2⟩) y hy
  | case5 pf e1 f pg e2 g hne hnlt ih =>
      intro hf hg x hx y hy
      rcases facValid_cons.mp hf with ⟨hb1, _, _, hv1⟩
      rcases facValid_cons.mp hg with ⟨hb2, _, _, hv2⟩
      rw [facGcdSub, if_neg hne, if_neg hnlt] at hx hy
      have hx' := mem_fac_compact.mp hx
      have hy' := mem_fac_compact.mp hy
      have hx1 : x.1 ∈ ((pf, e1) :: f).map Prod.fst := facGcdSub_left_fst_mem hx'.1
      rcases List.mem_cons.mp hy'.1 with h2 | h2
      · have hy1 : y.1 = pg := congrArg Prod.fst h2
        rcases List.mem_map.mp hx1 with ⟨z, hz, hz1⟩
        rcases List.mem_cons.mp hz with h3 | h3
        · subst h3
          simp only at hz1
          omega
        · have := hb1 z h3
          simp only at hz1 this
          omega
      · exact ih hf hv2 x hx y (mem_fac_compact.mpr ⟨h2, hy'.2⟩)

/-! ## The balanced product tree `bs_mul` -/

theorem list_range_map_prod (n : Nat) (F : Nat → Nat) :
    ((List.range n).map F).prod = ∏ i ∈ Finset.range n, F i := by
  induction n with
  | zero => rfl
  | succ m ih =>
      rw [List.range_succ, List.map_append, List.prod_append, Finset.prod_range_succ, ih]
      simp

theorem bsMulSmall_eq (fmul : FacList) (a b : Nat) :
    bsMulSmall fmul a b =
      ∏ i ∈ Finset.Ico a b, (fmul.getD i (0, 0)).1 ^ (fmul.getD i (0, 0)).2 := by
  rw [bsMulSmall, list_range_map_prod, Finset.prod_Ico_eq_prod_range]

theorem bs_mul_eq_Ico (fmul : FacList) (a b : Nat) :
    bs_mul fmul a b =
      ∏ i ∈ Finset.Ico a b, (fmul.getD i (0, 0)).1 ^ (fmul.getD i (0, 0)).2 := by
  induction a, b using bs_mul.induct fmul with
  | case1 a b hle => rw [bs_mul, if_pos hle, bsMulSmall_eq]
  | case2 a b hgt ih1 ih2 =>
      rw [bs_mul, if_neg hgt, ih1, ih2,
        Finset.prod_Ico_consecutive _ (by omega : a ≤ (a + b) / 2) (by omega : (a + b) / 2 ≤ b)]

theorem evalFac_eq_range_prod (l : FacList) :
    evalFac l = ∏ i ∈ Finset.range l.length, (l.getD i (0, 0)).1 ^ (l.getD i (0, 0)).2 := by
  induction l with
  | nil => rfl
  | cons x t ih =>
      rw [evalFac_cons, List.length_cons, Finset.prod_range_succ', ih]
      simp only [List.getD_cons_succ, List.getD_cons_zero]
      ring

/-- `bs_mul` over the whole list computes the represented value. -/
theorem bs_mul_eval (l : FacList) : bs_mul l 0 l.length = evalFac l := by
  rw [bs_mul_eq_Ico, evalFac_eq_range_prod, Finset.range_eq_Ico]

/-! ## `fac_remove_gcd` -/

/-- Full specification of `fac_remove_gcd` under the factored-twin
preconditions: `p` and `g` are divided exactly by the represented shared
minimum `d`, the factored outputs lose exactly `d`, stay well-formed, and
share no factor. -/
theorem fac_remove_gcd_spec (p g : Int) (fp fg : FacList)
    (hfp : FacValid fp) (hfg : FacValid fg)
    (hdp : (evalFac fp : Int) ∣ p) (hdg : (evalFac fg : Int) ∣ g) :
    (fac_remove_gcd p fp g fg).p * (evalFac (facGcdSub fp fg).2.2 : Int) = p ∧
    (fac_remove_gcd p fp g fg).g * (evalFac (facGcdSub fp fg).2.2 : Int) = g ∧
    evalFac (fac_remove_gcd p fp g fg).fp * evalFac (facGcdSub fp fg).2.2 = evalFac fp ∧
    evalFac (fac_remove_gcd p fp g fg).fg * evalFac (facGcdSub fp fg).2.2 = evalFac fg ∧
    FacValid (fac_remove_gcd p fp g fg).fp ∧
    FacValid (fac_remove_gcd p fp g fg).fg ∧
    (∀ x ∈ (fac_remove_gcd p fp g fg).fp, ∀ y ∈ (fac_remove_gcd p fp g fg).fg,
      x.1 ≠ y.1) := by
  have hdfp : evalFac (facGcdSub fp fg).2.2 ∣ evalFac fp :=
    ⟨evalFac (facGcdSub fp fg).1, (facGcdSub_eval_left fp fg).symm.trans (Nat.mul_comm _ _)⟩
  have hdfg : evalFac (facGcdSub fp fg).2.2 ∣ evalFac fg :=
    ⟨evalFac (facGcdSub fp fg).2.1, (facGcdSub_eval_right fp fg).symm.trans (Nat.mul_comm _ _)⟩
  have hdp' : ((evalFac (facGcdSub fp fg).2.2 : Nat) : Int) ∣ p :=
    dvd_trans (Int.natCast_dvd_natCast.mpr hdfp) hdp
  have hdg' : ((evalFac (facGcdSub fp fg).2.2 : Nat) : Int) ∣ g :=
    dvd_trans (Int.natCast_dvd_natCast.mpr hdfg) hdg
  have hp1 : List.Pairwise (fun x y : Nat × Nat => x.1 < y.1) (facGcdSub fp fg).1 := by
    have h2 : List.Pairwise (· < ·) ((facGcdSub fp fg).1.map Prod.fst) := by
      rw [facGcdSub_fst_left]
      exact List.pairwise_map.mpr hfp.1
    exact List.pairwise_map.mp h2
  have hp2 : List.Pairwise (fun x y : Nat × Nat => x.1 < y.1) (facGcdSub fp fg).2.1 := by
    have h2 : List.Pairwise (· < ·) ((facGcdSub fp fg).2.1.map Prod.fst) := by
      rw [facGcdSub_fst_right]
      exact List.pairwise_map.mpr hfg.1
    exact List.pairwise_map.mp h2
  have hpr1 : ∀ x ∈ (facGcdSub fp fg).1, Nat.Prime x.1 := by
    intro x hx
    rcases List.mem_map.mp (facGcdSub_left_fst_mem hx) with ⟨z, hz, hz1⟩
    exact hz1 ▸ (hfp.2 z hz).1
  have hpr2 : ∀ x ∈ (facGcdSub fp fg).2.1, Nat.Prime x.1 := by
    intro x hx
    rcases List.mem_map.mp (facGcdSub_right_fst_mem hx) with ⟨z, hz, hz1⟩
    exact hz1 ▸ (hfg.2 z hz).1
  rw [fac_remove_gcd]
  split
  · rename_i hlen
    have hbs : (bs_mul (facGcdSub fp fg).2.2 0 (facGcdSub fp fg).2.2.length : Nat) =
        evalFac (facGcdSub fp fg).2.2 := bs_mul_eval _
    refine ⟨?_, ?_, ?_, ?_, ?_, ?_, ?_⟩
    · show p / ((bs_mul _ 0 _ : Nat) : Int) * _ = p
      rw [hbs]
      exact Int.ediv_mul_cancel hdp'
    · show g / ((bs_mul _ 0 _ : Nat) : Int) * _ = g
      rw [hbs]
      exact Int.ediv_mul_cancel hdg'
    · show evalFac (fac_compact (facGcdSub fp fg).1) * _ = _
      rw [evalFac_compact]
      exact facGcdSub_eval_left fp fg
    · show evalFac (fac_compact (facGcdSub fp fg).2.1) * _ = _
      rw [evalFac_compact]
      exact facGcdSub_eval_right fp fg
    · exact fac_compact_valid hp1 hpr1
    · exact fac_compact_valid hp2 hpr2
    · exact facGcdSub_compact_disjoint hfp hfg
  · rename_i hlen
    have hnil : (facGcdSub fp fg).2.2 = [] := by
      rcases List.length_eq_zero.mp (by omega : (facGcdSub fp fg).2.2.length = 0) with h
      exact h
    rw [hnil, evalFac_nil]
    refine ⟨by simp, by simp, by simp, by simp, hfp, hfg, ?_⟩
    intro x hx y hy hxy
    have hx' : (x.1, x.2) ∈ fp := by rwa [Prod.mk.eta]
    have hy' : (x.1, y.2) ∈ fg := by rw [hxy]; rwa [Prod.mk.eta]
    rcases facGcdSub_mins_shared hfp.1 hfg.1 hx' hy' with ⟨c, hc⟩
    rw [hnil] at hc
    exact absurd hc (List.not_mem_nil _)

/-! ## Claim C5 -/

/-- Claim C5: for any two factored integers with strictly increasing prime
factors and positive exponents, the sorted-merge multiply `fac_mul2` is
commutative as a sequence, its result again has strictly increasing prime
factors and positive exponents, and its represented value is the product of
the represented values of the inputs. -/
theorem claim_C5 (f g : FacList) (hf : FacValid f) (hg : FacValid g) :
    fac_mul2 f g = fac_mul2 g f ∧ FacValid (fac_mul2 f g) ∧
      evalFac (fac_mul2 f g) = evalFac f * evalFac g :=
  ⟨fac_mul2_comm f g, fac_mul2_valid hf hg, fac_mul2_eval f g⟩

theorem claim_C5_witness :
    FacValid [(2, 1), (5, 2)] ∧ FacValid [(3, 1), (5, 1)] ∧
      (fac_mul2 [(2, 1), (5, 2)] [(3, 1), (5, 1)] =
          fac_mul2 [(3, 1), (5, 1)] [(2, 1), (5, 2)] ∧
        FacValid (fac_mul2 [(2, 1), (5, 2)] [(3, 1), (5, 1)]) ∧
        evalFac (fac_mul2 [(2, 1), (5, 2)] [(3, 1), (5, 1)]) =
          evalFac [(2, 1), (5, 2)] * evalFac [(3, 1), (5, 1)]) :=
  ⟨by show List.Pairwise _ _ ∧ _; decide, by show List.Pairwise _ _ ∧ _; decide,
    claim_C5 [(2, 1), (5, 2)] [(3, 1), (5, 1)]
      (by show List.Pairwise _ _ ∧ _; decide) (by show List.Pairwise _ _ ∧ _; decide)⟩

/-! ## Claim C4 -/

/-- Claim C4: for exact integers `p`, `g` with well-formed factored twins
`fp`, `fg` whose represented values divide `p` and `g`, `fac_remove_gcd`
divides both `p` and `g` exactly by `d`, the represented value of the
shared-minimum list (the product over shared primes of the minimum
exponents), and on return the factored twins share no common prime and
contain no zero-exponent entry. -/
theorem claim_C4 (p g : Int) (fp fg : FacList)
    (hfp : FacValid fp) (hfg : FacValid fg)
    (hdp : (evalFac fp : Int) ∣ p) (hdg : (evalFac fg : Int) ∣ g) :
    (fac_remove_gcd p fp g fg).p * (evalFac (facGcdSub fp fg).2.2 : Int) = p ∧
    (fac_remove_gcd p fp g fg).g * (evalFac (facGcdSub fp fg).2.2 : Int) = g ∧
    (∀ x ∈ (fac_remove_gcd p fp g fg).fp, ∀ y ∈ (fac_remove_gcd p fp g fg).fg,
      x.1 ≠ y.1) ∧
    (∀ x ∈ (fac_remove_gcd p fp g fg).fp, 0 < x.2) ∧
    (∀ x ∈ (fac_remove_gcd p fp g fg).fg, 0 < x.2) := by
  obtain ⟨h1, h2, _, _, h5, h6, h7⟩ := fac_remove_gcd_spec p g fp fg hfp hfg hdp hdg
  exact ⟨h1, h2, h7, fun x hx => (h5.2 x hx).2, fun x hx => (h6.2 x hx).2⟩

theorem claim_C4_witness :
    FacValid [(3, 2), (5, 1)] ∧ FacValid [(3, 1), (7, 2)] ∧
      ((evalFac [(3, 2), (5, 1)] : Int) ∣ 90 ∧ (evalFac [(3, 1), (7, 2)] : Int) ∣ 294) ∧
      ((fac_remove_gcd 90 [(3, 2), (5, 1)] 294 [(3, 1), (7, 2)]).p *
          (evalFac (facGcdSub [(3, 2), (5, 1)] [(3, 1), (7, 2)]).2.2 : Int) = 90 ∧
        (fac_remove_gcd 90 [(3, 2), (5, 1)] 294 [(3, 1), (7, 2)]).g *
          (evalFac (facGcdSub [(3, 2), (5, 1)] [(3, 1), (7, 2)]).2.2 : Int) = 294 ∧
        (∀ x ∈ (fac_remove_gcd 90 [(3, 2), (5, 1)] 294 [(3, 1), (7, 2)]).fp,
          ∀ y ∈ (fac_remove_gcd 90 [(3, 2), (5, 1)] 294 [(3, 1), (7, 2)]).fg,
            x.1 ≠ y.1) ∧
        (∀ x ∈ (fac_remove_gcd 90 [(3, 2), (5, 1)] 294 [(3, 1), (7, 2)]).fp, 0 < x.2) ∧
        (∀ x ∈ (fac_remove_gcd 90 [(3, 2), (5, 1)] 294 [(3, 1), (7, 2)]).fg, 0 < x.2)) :=
  ⟨by show List.Pairwise _ _ ∧ _; decide, by show List.Pairwise _ _ ∧ _; decide,
    ⟨by decide, by decide⟩,
    claim_C4 90 294 [(3, 2), (5, 1)] [(3, 1), (7, 2)]
      (by show List.Pairwise _ _ ∧ _; decide) (by show List.Pairwise _ _ ∧ _; decide)
      (by decide) (by decide)⟩

/-! ## Sieve correctness: helper lemmas -/

theorem odd_half_inj {v w : Nat} (hv : Odd v) (hw : Odd w) (h : v / 2 = w / 2) :
    v = w := by
  rcases hv with ⟨a, ha⟩
  rcases hw with ⟨b, hb⟩
  omega

theorem odd_not_two_dvd {v : Nat} (hv : Odd v) : ¬ 2 ∣ v := by
  rcases hv with ⟨a, ha⟩
  rintro ⟨c, hc⟩
  omega

theorem minFac_odd_ge_three {v : Nat} (hv : Odd v) (h3 : 3 ≤ v) : 3 ≤ v.minFac := by
  have hp : (v.minFac).Prime := Nat.minFac_prime (by omega)
  have h2 : v.minFac ≠ 2 := by
    intro h
    exact odd_not_two_dvd hv (h ▸ Nat.minFac_dvd v)
  have := hp.two_le
  omega

theorem EntryOk_congr {s s' : SieveMap} {v : Nat}
    (h : svGet s' (v / 2) = svGet s (v / 2)) (he : EntryOk s v) : EntryOk s' v := by
  rcases he with ⟨e, c, he1, he2, he3, he4⟩
  exact ⟨e, c, he1, he2, he3, h.trans he4⟩

/-- The only odd multiple of odd `i` in the window `[j, j + 2i)` around the
odd multiple `j` is `j` itself. -/
theorem odd_mult_window {i v j : Nat} (hio : Odd i) (hvo : Odd v) (hjo : Odd j)
    (hdv : i ∣ v) (hdj : i ∣ j) (h1 : j ≤ v) (h2 : v < j + 2 * i) : v = j := by
  rcases hdv with ⟨a, ha⟩
  rcases hdj with ⟨b, hb⟩
  have hi1 : 1 ≤ i := by
    rcases hio with ⟨m, hm⟩
    omega
  have hab : b ≤ a ∧ a < b + 2 := by
    constructor
    · by_contra h
      push_neg at h
      have : a + 1 ≤ b := h
      nlinarith
    · by_contra h
      push_neg at h
      nlinarith
  have hao : Odd a := by
    rcases (Nat.odd_mul.mp (ha ▸ hvo)) with ⟨_, h⟩
    exact h
  have hbo : Odd b := by
    rcases (Nat.odd_mul.mp (hb ▸ hjo)) with ⟨_, h⟩
    exact h
  rcases hao with ⟨x, hx⟩
  rcases hbo with ⟨y, hy⟩
  have : a = b := by omega
  rw [ha, hb, this]

theorem innerStep_other (s : SieveMap) (i j k m : Nat) (hm : m ≠ j / 2) :
    svGet (innerStep s i j k) m = svGet s m := by
  unfold innerStep
  split
  · split
    · exact svGet_set_ne _ _ _ _ hm
    · exact svGet_set_ne _ _ _ _ hm
  · rfl

theorem innerStep_length (s : SieveMap) (i j k : Nat) :
    (innerStep s i j k).length = s.length := by
  unfold innerStep
  split
  · split
    · exact length_svSet _ _ _
    · exact length_svSet _ _ _
  · rfl

theorem innerStep_skip (s : SieveMap) (i j k : Nat)
    (h : ¬ (svGet s (j / 2)).fac = 0) : innerStep s i j k = s := by
  unfold innerStep
  rw [if_neg h]

/-- The marking write: when `j`'s smallest factor is exactly `i` and `j`'s
slot is still clear, `innerStep` installs the correct entry for `j`. -/
theorem innerStep_write (n i j : Nat) (s : SieveMap) (hn2 : n % 2 = 0)
    (hip : i.Prime) (hio : Odd i) (hi3 : 3 ≤ i)
    (hjo : Odd j) (hdvd : i ∣ j) (hsq : i * i ≤ j) (hjn : j ≤ n)
    (hmin : j.minFac = i) (hinv : InnerInv n i j s) :
    EntryOk (innerStep s i j ((j / i) / 2)) j := by
  obtain ⟨hlen, hv⟩ := hinv
  have hi0 : 0 < i := by omega
  have hcj : i * (j / i) = j := Nat.mul_div_cancel' hdvd
  set c := j / i with hcdef
  have hco : Odd c := (Nat.odd_mul.mp (hcj ▸ hjo)).2
  have hci : i ≤ c := Nat.le_of_mul_le_mul_left (by rw [hcj]; exact hsq) hi0
  have hcle : c ≤ j := by nlinarith
  have hcn : c ≤ n := le_trans hcle hjn
  have hc3 : 3 ≤ c := le_trans hi3 hci
  have hj9 : 9 ≤ j := by nlinarith
  have hj3 : 3 ≤ j := by omega
  have hji : j ≠ i := by nlinarith
  have hjhalf : j / 2 < s.length := by
    rw [hlen]
    rcases hjo with ⟨m, hm⟩
    omega
  have hzero : svGet s (j / 2) = ⟨0, 0, 0⟩ :=
    (hv j hjo hj3 hjn).2.2 ⟨le_of_eq hmin.symm, hji, fun h => lt_irrefl j h.2⟩
  unfold innerStep
  rw [hzero]
  rw [if_pos rfl]
  by_cases hic : i ∣ c
  · by_cases hcie : c = i
    · -- j = i * i
      have hji2 : j = i * i := by rw [← hcj, hcie]
      obtain ⟨e, c', he, heq, hnd, hent⟩ :=
        (hv i hio hi3 (le_trans hci hcn)).1 (Or.inr rfl)
      rw [Nat.Prime.minFac_eq hip] at heq hnd hent
      have hc'pos : 0 < c' := by
        rcases Nat.eq_zero_or_pos c' with h | h
        · rw [h, Nat.mul_zero] at heq
          omega
        · exact h
      have hpowle : i ^ e ≤ i := Nat.le_of_dvd hi0 ⟨c', heq⟩
      have hpowge : i ≤ i ^ e := by
        calc i = i ^ 1 := (pow_one i).symm
          _ ≤ i ^ e := Nat.pow_le_pow_right hi0 he
      have hpow : i ^ e = i := le_antisymm hpowle hpowge
      have hc'1 : c' = 1 := by
        rw [hpow] at heq
        nlinarith
      have he1 : e = 1 := by
        have h2 : i ^ e = i ^ 1 := by rw [hpow, pow_one]
        exact Nat.pow_right_injective (by omega) h2
      rw [hcie, hent, hc'1, he1]
      rw [if_pos rfl]
      refine ⟨2, 1, by omega, ?_, ?_, ?_⟩
      · rw [hmin, hji2, Nat.mul_one, pow_two]
      · rw [hmin]
        exact Nat.Prime.not_dvd_one hip
      · rw [svGet_set_self _ _ _ hjhalf, hmin]
    · -- i divides c, c properly larger
      have hcdj : c ∣ j := Dvd.intro_left i hcj
      have hcmf : c.minFac = i := by
        have h1 : c.minFac ≤ i := Nat.minFac_le_of_dvd hip.two_le hic
        have h2 : (c.minFac) ∣ j := dvd_trans (Nat.minFac_dvd c) hcdj
        have h3 : j.minFac ≤ c.minFac :=
          Nat.minFac_le_of_dvd (Nat.minFac_prime (by omega : c ≠ 1)).two_le h2
        omega
      have hclt : c < j := by nlinarith
      obtain ⟨e, c', he, heq, hnd, hent⟩ :=
        (hv c hco hc3 hcn).2.1 ⟨hcmf, hcie, hclt⟩
      rw [hcmf] at heq hnd hent
      rw [hent]
      rw [if_pos rfl]
      refine ⟨e + 1, c', by omega, ?_, ?_, ?_⟩
      · rw [hmin, pow_succ, ← hcj, heq]
        ring
      · rw [hmin]
        exact hnd
      · rw [svGet_set_self _ _ _ hjhalf, hmin]
  · -- i does not divide the cofactor
    have hcne : c ≠ i := fun h => hic (h ▸ dvd_refl i)
    have hkfac : ¬ (svGet s (c / 2)).fac = i := by
      rcases lt_or_ge c.minFac i with hlt | hge
      · obtain ⟨e, c', _, _, _, hent⟩ := (hv c hco hc3 hcn).1 (Or.inl hlt)
        rw [hent]
        simp only
        omega
      · have hne : c.minFac ≠ i := fun h => hic (h ▸ Nat.minFac_dvd c)
        have hz : svGet s (c / 2) = ⟨0, 0, 0⟩ :=
          (hv c hco hc3 hcn).2.2 ⟨hge, hcne, fun h => hne h.1⟩
        rw [hz]
        simp only
        omega
    rw [if_neg hkfac]
    refine ⟨1, c, Nat.one_pos, ?_, ?_, ?_⟩
    · rw [hmin, pow_one, hcj]
    · rw [hmin]
      exact hic
    · rw [svGet_set_self _ _ _ hjhalf, hmin]

/-- One marking step extends the inner invariant's window by one multiple. -/
theorem InnerInv_step (n i j : Nat) (s s' : SieveMap)
    (hip : i.Prime) (hio : Odd i) (hi3 : 3 ≤ i)
    (hjo : Odd j) (hdvd : i ∣ j) (hsq : i * i ≤ j)
    (hinv : InnerInv n i j s)
    (hlen' : s'.length = n / 2)
    (hother : ∀ m, m ≠ j / 2 → svGet s' m = svGet s m)
    (hsame : j.minFac < i → svGet s' (j / 2) = svGet s (j / 2))
    (hj : j.minFac = i → j ≤ n → EntryOk s' j) :
    InnerInv n i (j + (i + i)) s' := by
  obtain ⟨hlen, hv⟩ := hinv
  have hji : j ≠ i := by nlinarith
  have hmfle : i ∣ j → j.minFac ≤ i := fun h => Nat.minFac_le_of_dvd hip.two_le h
  refine ⟨hlen', fun v hvo hv3 hvn => ⟨?_, ?_, ?_⟩⟩
  · intro h1
    by_cases hvj : v = j
    · subst hvj
      rcases h1 with h | h
      · exact EntryOk_congr (hsame h) ((hv v hvo hv3 hvn).1 (Or.inl h))
      · exact absurd h hji
    · exact EntryOk_congr (hother _ (fun h => hvj (odd_half_inj hvo hjo h)))
        ((hv v hvo hv3 hvn).1 h1)
  · rintro ⟨hmf, hvne, hvlt⟩
    by_cases hvj : v = j
    · subst hvj
      exact hj hmf hvn
    · rcases lt_or_ge v j with hlt | hge
      · exact EntryOk_congr (hother _ (fun h => hvj (odd_half_inj hvo hjo h)))
          ((hv v hvo hv3 hvn).2.1 ⟨hmf, hvne, hlt⟩)
      · exact absurd (odd_mult_window hio hvo hjo (hmf ▸ Nat.minFac_dvd v) hdvd hge
          (by omega)) hvj
  · rintro ⟨hge, hvne, hnot⟩
    by_cases hvj : v = j
    · subst hvj
      have : v.minFac = i := le_antisymm (hmfle hdvd) hge
      exact absurd ⟨this, by omega⟩ hnot
    · refine (hother _ (fun h => hvj (odd_half_inj hvo hjo h))).trans
        ((hv v hvo hv3 hvn).2.2 ⟨hge, hvne, ?_⟩)
      rintro ⟨h1, h2⟩
      exact hnot ⟨h1, by omega⟩

/-- The inner marking loop preserves and completes the inner invariant. -/
theorem innerLoop_ok (n i : Nat) (hn2 : n % 2 = 0)
    (hip : i.Prime) (hio : Odd i) (hi3 : 3 ≤ i) :
    ∀ fuel j s, Odd j → i ∣ j → i * i ≤ j → n < j + 2 * i * fuel →
      InnerInv n i j s →
      ∃ jf, n < jf ∧ InnerInv n i jf (innerLoop n i fuel j ((j / i) / 2) s) := by
  intro fuel
  induction fuel with
  | zero =>
      intro j s hjo hdvd hsq hbound hinv
      exact ⟨j, by omega, hinv⟩
  | succ fuel ih =>
      intro j s hjo hdvd hsq hbound hinv
      rw [innerLoop]
      by_cases hjn : j ≤ n
      · rw [if_pos hjn]
        have hstep : InnerInv n i (j + (i + i)) (innerStep s i j ((j / i) / 2)) := by
          by_cases hz : (svGet s (j / 2)).fac = 0
          · refine InnerInv_step n i j s _ hip hio hi3 hjo hdvd hsq hinv
              ((innerStep_length _ _ _ _).trans hinv.1) (innerStep_other _ _ _ _)
              ?_ (fun hmf _ => innerStep_write n i j s hn2 hip hio hi3 hjo hdvd hsq
                hjn hmf hinv)
            · intro hlt
              have hj3 : 3 ≤ j := by nlinarith
              obtain ⟨e, c', _, _, _, hent⟩ := (hinv.2 j hjo hj3 hjn).1 (Or.inl hlt)
              rw [hent] at hz
              have h3 : 3 ≤ j.minFac := minFac_odd_ge_three hjo hj3
              simp only at hz
              omega
          · rw [innerStep_skip s i j _ hz]
            have hmflt : j.minFac < i := by
              have hle : j.minFac ≤ i := Nat.minFac_le_of_dvd hip.two_le hdvd
              rcases eq_or_lt_of_le hle with heq | hlt
              · exfalso
                have hj3 : 3 ≤ j := by nlinarith
                have hji : j ≠ i := by nlinarith
                have := (hinv.2 j hjo hj3 hjn).2.2
                  ⟨le_of_eq heq.symm, hji, fun h => lt_irrefl j h.2⟩
                rw [this] at hz
                exact hz rfl
              · exact hlt
            exact InnerInv_step n i j s s hip hio hi3 hjo hdvd hsq hinv hinv.1
              (fun _ _ => rfl) (fun _ => rfl)
              (fun hmf _ => absurd hmf (by omega))
        have harg : ((j + (i + i)) / i) / 2 = (j / i) / 2 + 1 := by
          have hcj : i * (j / i) = j := Nat.mul_div_cancel' hdvd
          have hco : Odd (j / i) := (Nat.odd_mul.mp (hcj ▸ hjo)).2
          have h1 : (j + (i + i)) / i = j / i + 2 := by
            rcases hdvd with ⟨c, hc⟩
            subst hc
            have h2 : i * c + (i + i) = i * (c + 2) := by ring
            rw [h2, Nat.mul_div_cancel_left _ (by omega : 0 < i),
              Nat.mul_div_cancel_left _ (by omega : 0 < i)]
          rw [h1]
          rcases hco with ⟨m, hm⟩
          omega
        have hodd2 : Odd (j + (i + i)) := by
          rcases hjo with ⟨m, hm⟩
          rcases hio with ⟨m', hm'⟩
          exact ⟨m + m' + m' + 1, by omega⟩
        have hdvd2 : i ∣ (j + (i + i)) := by
          rcases hdvd with ⟨c, hc⟩
          exact ⟨c + 2, by rw [hc]; ring⟩
        have hsq2 : i * i ≤ j + (i + i) := le_trans hsq (Nat.le_add_right _ _)
        have hbound2 : n < j + (i + i) + 2 * i * fuel := by
          have heq : j + 2 * i * (fuel + 1) = j + (i + i) + 2 * i * fuel := by ring
          exact heq ▸ hbound
        rw [← harg]
        exact ih (j + (i + i)) _ hodd2 hdvd2 hsq2 hbound2 hstep
      · rw [if_neg hjn]
        exact ⟨j, by omega, hinv⟩

theorem svInit_get_ne (n m : Nat) (hm : m ≠ 0) :
    svGet (svInit n) m = ⟨0, 0, 0⟩ := by
  unfold svGet svInit
  rw [List.getD_eq_getElem?_getD, List.getElem?_set_ne (Ne.symm hm),
    List.getElem?_replicate]
  split <;> rfl

theorem svInit_length (n : Nat) : (svInit n).length = n / 2 := by
  unfold svInit
  rw [List.length_set, List.length_replicate]

/-- A `v` whose smallest factor is `i` and which is not `i` itself is at
least `i * i`. -/
theorem sq_le_of_minFac {i v : Nat} (h3 : 3 ≤ v) (hmf : v.minFac = i)
    (hne : v ≠ i) : i * i ≤ v := by
  have hdvd : i ∣ v := hmf ▸ Nat.minFac_dvd v
  have hi0 : 0 < i := (hmf ▸ (Nat.minFac_prime (by omega : v ≠ 1)).pos)
  have hcv : i * (v / i) = v := Nat.mul_div_cancel' hdvd
  have hc1 : v / i ≠ 1 := by
    intro h
    rw [h, Nat.mul_one] at hcv
    exact hne hcv.symm
  have hc0 : v / i ≠ 0 := by
    intro h
    rw [h, Nat.mul_zero] at hcv
    omega
  have hq : (v / i).minFac ∣ v := dvd_trans (Nat.minFac_dvd _) (Dvd.intro_left i hcv)
  have hiq : i ≤ (v / i).minFac := by
    have := Nat.minFac_le_of_dvd (Nat.minFac_prime hc1).two_le hq
    omega
  have hqc : (v / i).minFac ≤ v / i := Nat.minFac_le (Nat.pos_of_ne_zero hc0)
  calc i * i ≤ i * (v / i) := Nat.mul_le_mul_left i (le_trans hiq hqc)
    _ = v := hcv

/-- For odd `v`, a smallest factor below `i + 2` (odd `i`) is at most `i`. -/
theorem minFac_lt_add_two {i v : Nat} (hio : Odd i) (hvo : Odd v) (h3 : 3 ≤ v)
    (h : v.minFac < i + 2) : v.minFac < i ∨ v.minFac = i := by
  rcases Nat.lt_or_ge v.minFac i with hlt | hge
  · exact Or.inl hlt
  · have : v.minFac = i ∨ v.minFac = i + 1 := by omega
    rcases this with h1 | h1
    · exact Or.inr h1
    · exfalso
      have hdv : v.minFac ∣ v := Nat.minFac_dvd v
      have hodd : Odd v.minFac := by
        rcases Nat.even_or_odd v.minFac with he | ho
        · exfalso
          rcases he with ⟨m, hm⟩
          exact odd_not_two_dvd hvo (dvd_trans ⟨m, by omega⟩ hdv)
        · exact ho
      rcases hodd with ⟨m, hm⟩
      rcases hio with ⟨m', hm'⟩
      omega

/-- The outer step advances the sieve invariant by one odd candidate. -/
theorem outerStep_inv {n i : Nat} {s : SieveMap} (hn2 : n % 2 = 0)
    (hio : Odd i) (hi3 : 3 ≤ i) (hin : i ≤ n) (hinv : SieveInv n i s) :
    SieveInv n (i + 2) (outerStep n i s) := by
  obtain ⟨hlen, hv⟩ := hinv
  by_cases hip : i.Prime
  · -- prime candidate: mark it and run the inner loop
    have hz : svGet s (i / 2) = ⟨0, 0, 0⟩ :=
      (hv i hio hi3 hin).2 (le_of_eq (Nat.Prime.minFac_eq hip).symm)
    have hihalf : i / 2 < s.length := by
      rw [hlen]
      rcases hio with ⟨m, hm⟩
      omega
    have hs1get : svGet (svSet s (i / 2) ⟨i, 1, (svGet s (i / 2)).nxt⟩) (i / 2) =
        ⟨i, 1, 0⟩ := by
      rw [svGet_set_self _ _ _ hihalf, hz]
    have hs1ok : EntryOk (svSet s (i / 2) ⟨i, 1, (svGet s (i / 2)).nxt⟩) i := by
      refine ⟨1, 1, Nat.one_pos, ?_, ?_, ?_⟩
      · rw [Nat.Prime.minFac_eq hip, pow_one, Nat.mul_one]
      · rw [Nat.Prime.minFac_eq hip]
        exact Nat.Prime.not_dvd_one hip
      · rw [hs1get, Nat.Prime.minFac_eq hip]
    have hinner : InnerInv n i (i * i)
        (svSet s (i / 2) ⟨i, 1, (svGet s (i / 2)).nxt⟩) := by
      refine ⟨(length_svSet _ _ _).trans hlen, fun v hvo hv3 hvn => ⟨?_, ?_, ?_⟩⟩
      · intro h1
        rcases h1 with h | h
        · have hvne : v ≠ i := by
            intro hh
            rw [hh, Nat.Prime.minFac_eq hip] at h
            omega
          exact EntryOk_congr
            (svGet_set_ne _ _ _ _ (fun hh => hvne (odd_half_inj hvo hio hh)))
            ((hv v hvo hv3 hvn).1 h)
        · subst h
          exact hs1ok
      · rintro ⟨hmf, hvne, hvlt⟩
        exact absurd (sq_le_of_minFac hv3 hmf hvne) (by omega)
      · rintro ⟨hge, hvne, _⟩
        refine (svGet_set_ne _ _ _ _
          (fun hh => hvne (odd_half_inj hvo hio hh))).trans
          ((hv v hvo hv3 hvn).2 ?_)
        omega
    unfold outerStep
    rw [hz]
    rw [if_pos rfl]
    have hfinal : ∀ s', InnerInv n i (i * i) s' → SieveInv n (i + 2)
        (if i ≤ Nat.sqrt n then innerLoop n i (n + 1) (i * i) (i / 2) s' else s') := by
      intro s' hinn
      by_cases hsq : i ≤ Nat.sqrt n
      · rw [if_pos hsq]
        have hkarg : (i * i) / i / 2 = i / 2 := by
          rw [Nat.mul_div_cancel_left _ (by omega : 0 < i)]
        have hiodd : Odd (i * i) := Nat.odd_mul.mpr ⟨hio, hio⟩
        have hbound : n < i * i + 2 * i * (n + 1) := by nlinarith
        obtain ⟨jf, hjf, hinvf⟩ := innerLoop_ok n i hn2 hip hio hi3 (n + 1) (i * i)
          s' hiodd (Dvd.intro i rfl) (le_refl _) hbound hinn
        rw [hkarg] at hinvf
        refine ⟨hinvf.1, fun v hvo hv3 hvn => ⟨?_, ?_⟩⟩
        · intro h1
          rcases minFac_lt_add_two hio hvo hv3 h1 with h | h
          · exact (hinvf.2 v hvo hv3 hvn).1 (Or.inl h)
          · by_cases hvi : v = i
            · exact (hinvf.2 v hvo hv3 hvn).1 (Or.inr hvi)
            · exact (hinvf.2 v hvo hv3 hvn).2.1 ⟨h, hvi, by omega⟩
        · intro h1
          refine (hinvf.2 v hvo hv3 hvn).2.2 ⟨by omega, ?_, ?_⟩
          · intro hh
            rw [hh, Nat.Prime.minFac_eq hip] at h1
            omega
          · rintro ⟨hh, _⟩
            omega
      · rw [if_neg hsq]
        refine ⟨hinn.1, fun v hvo hv3 hvn => ⟨?_, ?_⟩⟩
        · intro h1
          rcases minFac_lt_add_two hio hvo hv3 h1 with h | h
          · exact (hinn.2 v hvo hv3 hvn).1 (Or.inl h)
          · by_cases hvi : v = i
            · exact (hinn.2 v hvo hv3 hvn).1 (Or.inr hvi)
            · exfalso
              have hgt : n < i * i := by
                have h2 := Nat.sqrt_lt'.mp (show Nat.sqrt n < i by omega)
                rw [pow_two] at h2
                exact h2
              have := sq_le_of_minFac hv3 h hvi
              omega
        · intro h1
          refine (hinn.2 v hvo hv3 hvn).2.2 ⟨by omega, ?_, ?_⟩
          · intro hh
            rw [hh, Nat.Prime.minFac_eq hip] at h1
            omega
          · rintro ⟨hh, _⟩
            omega
    rw [hz] at hinner
    exact hfinal _ hinner
  · -- composite candidate: slot already final, nothing happens
    have hmflt : i.minFac < i := by
      have hle : i.minFac ≤ i := Nat.minFac_le (by omega)
      rcases eq_or_lt_of_le hle with heq | hlt
      · exfalso
        exact hip (heq ▸ Nat.minFac_prime (by omega : i ≠ 1))
      · exact hlt
    obtain ⟨e, c, _, _, _, hent⟩ := (hv i hio hi3 hin).1 hmflt
    have hfac : ¬ (svGet s (i / 2)).fac = 0 := by
      rw [hent]
      have := minFac_odd_ge_three hio hi3
      simp only
      omega
    unfold outerStep
    rw [if_neg hfac]
    refine ⟨hlen, fun v hvo hv3 hvn => ⟨?_, ?_⟩⟩
    · intro h1
      rcases minFac_lt_add_two hio hvo hv3 h1 with h | h
      · exact (hv v hvo hv3 hvn).1 h
      · exfalso
        exact hip (h ▸ Nat.minFac_prime (by omega : v ≠ 1))
    · intro h1
      exact (hv v hvo hv3 hvn).2 (by omega)

/-- The outer loop completes the sieve invariant. -/
theorem outerLoop_ok (n : Nat) (hn2 : n % 2 = 0) :
    ∀ fuel i s, Odd i → 3 ≤ i → SieveInv n i s → n < i + 2 * fuel →
      ∃ I, n < I ∧ SieveInv n I (outerLoop n fuel i s) := by
  intro fuel
  induction fuel with
  | zero =>
      intro i s hio hi3 hinv hbound
      exact ⟨i, by omega, hinv⟩
  | succ fuel ih =>
      intro i s hio hi3 hinv hbound
      rw [outerLoop]
      by_cases hin : i ≤ n
      · rw [if_pos hin]
        have hodd2 : Odd (i + 2) := by
          rcases hio with ⟨m, hm⟩
          exact ⟨m + 1, by omega⟩
        exact ih (i + 2) _ hodd2 (by omega)
          (outerStep_inv hn2 hio hi3 hin hinv) (by omega)
      · rw [if_neg hin]
        exact ⟨i, by omega, hinv⟩

/-- The sieve built by `build_sieve` factors every odd value up to its
(even) bound. -/
theorem build_sieve_ok (n : Nat) (hn2 : n % 2 = 0) : SieveOk n (build_sieve n) := by
  have hinit : SieveInv n 3 (svInit n) := by
    refine ⟨svInit_length n, fun v hvo hv3 hvn => ⟨?_, ?_⟩⟩
    · intro h1
      exact absurd h1 (by have := minFac_odd_ge_three hvo hv3; omega)
    · intro _
      refine svInit_get_ne n (v / 2) ?_
      rcases hvo with ⟨m, hm⟩
      omega
  obtain ⟨I, hI, hinv⟩ := outerLoop_ok n hn2 (n + 1) 3 (svInit n)
    ⟨1, by omega⟩ (le_refl 3) hinit (by omega)
  intro v hvo hv3 hvn
  refine (hinv.2 v hvo hv3 hvn).1 ?_
  have : v.minFac ≤ v := Nat.minFac_le (by omega)
  omega

theorem svWalk_zero (s : SieveMap) : ∀ fuel, svWalk s fuel 0 = [] := by
  intro fuel
  cases fuel with
  | zero => rfl
  | succ f => rw [svWalk, if_pos rfl]

/-- The chain walk from a correct sieve reconstructs the odd value as a
sorted list of prime powers. -/
theorem svWalk_ok (n : Nat) (s : SieveMap) (hok : SieveOk n s) :
    ∀ v, Odd v → 1 ≤ v → v ≤ n → ∀ fuel, v ≤ 2 * fuel + 1 →
      evalFac (svWalk s fuel (v / 2)) = v ∧
      List.Pairwise (fun x y : Nat × Nat => x.1 < y.1) (svWalk s fuel (v / 2)) ∧
      (∀ x ∈ svWalk s fuel (v / 2), Nat.Prime x.1 ∧ 0 < x.2) ∧
      (∀ x ∈ svWalk s fuel (v / 2), v.minFac ≤ x.1) := by
  intro v
  induction v using Nat.strong_induction_on with
  | _ v ih =>
    intro hvo hv1 hvn fuel hfuel
    by_cases hv3 : v < 3
    · have hveq : v = 1 := by
        rcases hvo with ⟨m, hm⟩
        omega
      subst hveq
      rw [show (1 : Nat) / 2 = 0 from rfl, svWalk_zero]
      exact ⟨rfl, List.Pairwise.nil, fun x hx => absurd hx (List.not_mem_nil x),
        fun x hx => absurd hx (List.not_mem_nil x)⟩
    · push_neg at hv3
      obtain ⟨e, c, he, heq, hnd, hent⟩ := hok v hvo hv3 hvn
      have hp3 : 3 ≤ v.minFac := minFac_odd_ge_three hvo hv3
      have hpprime : (v.minFac).Prime := Nat.minFac_prime (by omega)
      have hppow : 3 ≤ v.minFac ^ e :=
        le_trans hp3 (Nat.le_self_pow (by omega) _)
      have hc0 : 0 < c := by
        rcases Nat.eq_zero_or_pos c with h | h
        · rw [h, Nat.mul_zero] at heq
          omega
        · exact h
      have h3c : 3 * c ≤ v := by
        rw [heq]
        exact Nat.mul_le_mul_right c hppow
      have hclt : c < v := by omega
      have hco : Odd c := by
        rcases Nat.even_or_odd c with hce | hco
        · exfalso
          rcases hce with ⟨m, hm⟩
          have hcv : c ∣ v := Dvd.intro_left (v.minFac ^ e) heq.symm
          exact odd_not_two_dvd hvo (dvd_trans (show (2 : Nat) ∣ c from ⟨m, by omega⟩) hcv)
        · exact hco
      have hcn : c ≤ n := by omega
      rcases fuel with _ | f
      · omega
      have hhalf : ¬ v / 2 = 0 := by omega
      rw [svWalk, if_neg hhalf, hent]
      obtain ⟨iha, ihb, ihc, ihd⟩ := ih c hclt hco (by omega) hcn f (by omega)
      have hbound : ∀ x ∈ svWalk s f (c / 2), v.minFac < x.1 := by
        intro x hx
        by_cases hc1 : c = 1
        · rw [hc1, show (1 : Nat) / 2 = 0 from rfl, svWalk_zero] at hx
          exact absurd hx (List.not_mem_nil x)
        · have hcmf : v.minFac < c.minFac := by
            have h1 : v.minFac ≤ c.minFac := Nat.minFac_le_of_dvd
              (Nat.minFac_prime hc1).two_le
              (dvd_trans (Nat.minFac_dvd c) (Dvd.intro_left (v.minFac ^ e) heq.symm))
            have h2 : v.minFac ≠ c.minFac := by
              intro hh
              exact hnd (hh ▸ Nat.minFac_dvd c)
            omega
          exact lt_of_lt_of_le hcmf (ihd x hx)
      refine ⟨?_, ?_, ?_, ?_⟩
      · rw [evalFac_cons, iha]
        exact heq.symm
      · exact List.pairwise_cons.mpr ⟨hbound, ihb⟩
      · intro x hx
        rcases List.mem_cons.mp hx with h | h
        · rw [h]
          exact ⟨hpprime, he⟩
        · exact ihc x h
      · intro x hx
        rcases List.mem_cons.mp hx with h | h
        · rw [h]
        · exact le_of_lt (hbound x h)

theorem fac_set_bp_one (s : SieveMap) (v : Nat) :
    fac_set_bp s v 1 = svWalk s v (v / 2) := by
  unfold fac_set_bp
  have h : (fun fp : Nat × Nat => (fp.1, fp.2 * 1)) = id := by
    funext fp
    simp
  rw [h, List.map_id]

/-! ## Claim C2 -/

/-- Claim C2: for every odd `v` with `1 ≤ v ≤ N` and the program's (even)
sieve bound, the chain walk of `fac_set_bp` from slot `v/2` down to slot 0
over `build_sieve N` emits (prime, multiplicity) pairs with strictly
increasing primes whose product of prime powers is exactly `v`. -/
theorem claim_C2 (n v : Nat) (hn : n % 2 = 0) (hvo : Odd v) (hv1 : 1 ≤ v)
    (hvn : v ≤ n) :
    List.Pairwise (fun x y : Nat × Nat => x.1 < y.1)
      (fac_set_bp (build_sieve n) v 1) ∧
    (∀ x ∈ fac_set_bp (build_sieve n) v 1, Nat.Prime x.1 ∧ 0 < x.2) ∧
    evalFac (fac_set_bp (build_sieve n) v 1) = v := by
  rw [fac_set_bp_one]
  obtain ⟨h1, h2, h3, _⟩ := svWalk_ok n (build_sieve n) (build_sieve_ok n hn) v
    hvo hv1 hvn v (by omega)
  exact ⟨h2, h3, h1⟩

theorem claim_C2_witness :
    16 % 2 = 0 ∧ Odd 15 ∧ 1 ≤ 15 ∧ 15 ≤ 16 ∧
      (List.Pairwise (fun x y : Nat × Nat => x.1 < y.1)
          (fac_set_bp (build_sieve 16) 15 1) ∧
        (∀ x ∈ fac_set_bp (build_sieve 16) 15 1, Nat.Prime x.1 ∧ 0 < x.2) ∧
        evalFac (fac_set_bp (build_sieve 16) 15 1) = 15) :=
  ⟨rfl, ⟨7, by omega⟩, by omega, by omega,
    claim_C2 16 15 rfl ⟨7, by omega⟩ (by omega) (by omega)⟩

/-! ## Odd parts and the base case of `bs` -/

theorem odd_of_dvd_odd {m n : Nat} (h : m ∣ n) (hn : Odd n) : Odd m := by
  rcases Nat.even_or_odd m with he | ho
  · exfalso
    rcases he with ⟨k, hk⟩
    exact odd_not_two_dvd hn (dvd_trans (show (2 : Nat) ∣ m from ⟨k, by omega⟩) h)
  · exact ho

theorem odd_evalFac {l : FacList} (h : ∀ x ∈ l, Nat.Prime x.1 ∧ 3 ≤ x.1) :
    Odd (evalFac l) := by
  induction l with
  | nil => exact ⟨0, rfl⟩
  | cons x t ih =>
      rw [evalFac_cons]
      have hx := h x (List.mem_cons_self _ _)
      exact Odd.mul (Odd.pow (Nat.Prime.odd_of_ne_two hx.1 (by omega)))
        (ih fun y hy => h y (List.mem_cons_of_mem _ hy))

theorem fac_mul2_fst_bound {f g : FacList} {c : Nat}
    (hf : ∀ x ∈ f, c ≤ x.1) (hg : ∀ x ∈ g, c ≤ x.1) :
    ∀ x ∈ fac_mul2 f g, c ≤ x.1 := by
  intro x hx
  rcases fac_mul2_mem hx with h | h | ⟨ef, eg, h1, h2, h3⟩
  · exact hf x h
  · exact hg x h
  · exact hf (x.1, ef) h1

theorem oddPartF_spec : ∀ fuel m, 1 ≤ m → m ≤ fuel + 1 →
    Odd (oddPartF fuel m) ∧ ∃ k, 2 ^ k * oddPartF fuel m = m := by
  intro fuel
  induction fuel with
  | zero =>
      intro m h1 h2
      have hm1 : m = 1 := by omega
      subst hm1
      exact ⟨⟨0, rfl⟩, 0, rfl⟩
  | succ f ih =>
      intro m h1 h2
      rw [oddPartF]
      by_cases hm : m % 2 = 0
      · rw [if_pos hm]
        obtain ⟨ho, k, hk⟩ := ih (m / 2) (by omega) (by omega)
        refine ⟨ho, k + 1, ?_⟩
        have h3 : 2 * (2 ^ k * oddPartF f (m / 2)) = 2 * (m / 2) := by rw [hk]
        calc 2 ^ (k + 1) * oddPartF f (m / 2)
            = 2 * (2 ^ k * oddPartF f (m / 2)) := by ring
          _ = m := by omega
      · rw [if_neg hm]
        exact ⟨⟨m / 2, by omega⟩, 0, by rw [pow_zero, one_mul]⟩

theorem oddPart_spec (m : Nat) (h : 1 ≤ m) :
    Odd (oddPart m) ∧ ∃ k, 2 ^ k * oddPart m = m :=
  oddPartF_spec m m h (by omega)

theorem oddPart_le (m : Nat) (h : 1 ≤ m) : 1 ≤ oddPart m ∧ oddPart m ≤ m := by
  obtain ⟨ho, k, hk⟩ := oddPart_spec m h
  constructor
  · rcases Nat.eq_zero_or_pos (oddPart m) with h0 | h0
    · rw [h0, Nat.mul_zero] at hk
      omega
    · exact h0
  · have h1 : oddPart m ≤ 2 ^ k * oddPart m :=
      Nat.le_mul_of_pos_left _ (Nat.pos_pow_of_pos _ (by omega))
    omega

theorem sieveSizeOf_even (terms : Nat) : sieveSizeOf terms % 2 = 0 := by
  rw [sieveSizeOf]
  rcases Nat.le_total (3 * 5 * 23 * 29 + 1) (terms * 6) with h | h
  · rw [Nat.max_eq_right h]
    omega
  · rw [Nat.max_eq_left h]

theorem sieveSizeOf_ge (terms : Nat) :
    10006 ≤ sieveSizeOf terms ∧ terms * 6 ≤ sieveSizeOf terms := by
  rw [sieveSizeOf]
  exact ⟨le_trans (by omega) (Nat.le_max_left _ _), Nat.le_max_right _ _⟩

theorem progSieve_ok (terms : Nat) :
    SieveOk (sieveSizeOf terms) (progSieve terms) :=
  build_sieve_ok _ (sieveSizeOf_even terms)

theorem evalFac_map_pow (l : FacList) (pw : Nat) :
    evalFac (l.map fun fp => (fp.1, fp.2 * pw)) = evalFac l ^ pw := by
  induction l with
  | nil => rw [List.map_nil, evalFac_nil, one_pow]
  | cons x t ih =>
      rw [List.map_cons, evalFac_cons, evalFac_cons, ih, mul_pow, pow_mul]

/-- Full specification of `fac_set_bp` over the program's sieve: the result
represents `v ^ pw`, is well-formed, and all of its factors are odd
primes. -/
theorem fac_set_bp_spec (terms v pw : Nat) (hvo : Odd v) (hv1 : 1 ≤ v)
    (hvn : v ≤ sieveSizeOf terms) (hpw : 0 < pw) :
    evalFac (fac_set_bp (progSieve terms) v pw) = v ^ pw ∧
    FacValid (fac_set_bp (progSieve terms) v pw) ∧
    (∀ x ∈ fac_set_bp (progSieve terms) v pw, Nat.Prime x.1 ∧ 3 ≤ x.1) := by
  obtain ⟨h1, h2, h3, h4⟩ := svWalk_ok (sieveSizeOf terms) (progSieve terms)
    (progSieve_ok terms) v hvo hv1 hvn v (by omega)
  have hmem : ∀ x ∈ fac_set_bp (progSieve terms) v pw, Nat.Prime x.1 ∧ 3 ≤ x.1 := by
    intro x hx
    by_cases hv3 : 3 ≤ v
    · rcases List.mem_map.mp hx with ⟨z, hz, hz1⟩
      have hzp := h3 z hz
      have hzm := h4 z hz
      have h5 := minFac_odd_ge_three hvo hv3
      subst hz1
      exact ⟨hzp.1, show 3 ≤ z.1 by omega⟩
    · have hveq : v = 1 := by
        rcases hvo with ⟨m, hm⟩
        omega
      subst hveq
      rw [fac_set_bp, show (1 : Nat) / 2 = 0 from rfl, svWalk_zero, List.map_nil] at hx
      exact absurd hx (List.not_mem_nil x)
  refine ⟨?_, ⟨?_, ?_⟩, hmem⟩
  · rw [fac_set_bp, evalFac_map_pow, h1]
  · exact List.pairwise_map.mpr h2
  · intro x hx
    rcases List.mem_map.mp hx with ⟨z, hz, hz1⟩
    have hzp := h3 z hz
    refine ⟨(hmem x hx).1, ?_⟩
    subst hz1
    exact show 0 < z.2 * pw from Nat.mul_pos hzp.2 hpw

/-- A well-formed factored value with odd-prime factors that is divisible by
`27` starts with the factor `3` at exponent at least `3`. -/
theorem facValid_head_three {l : FacList} (hv : FacValid l)
    (hall : ∀ x ∈ l, Nat.Prime x.1 ∧ 3 ≤ x.1) (hd : 3 ^ 3 ∣ evalFac l) :
    ∃ e t, l = (3, e) :: t ∧ 3 ≤ e ∧
      (∀ y ∈ t, Nat.Prime y.1 ∧ 3 < y.1) ∧ FacValid t := by
  cases l with
  | nil =>
      rw [evalFac_nil] at hd
      exact absurd (Nat.dvd_one.mp hd) (by decide)
  | cons x t =>
      rcases x with ⟨p0, e0⟩
      rcases facValid_cons.mp hv with ⟨hb, hp, he, hvt⟩
      have hp03 : 3 ≤ p0 := (hall _ (List.mem_cons_self _ _)).2
      have h30 : p0 = 3 := by
        by_contra hne
        have h3lt : ∀ y ∈ (p0, e0) :: t, Nat.Prime y.1 ∧ 3 < y.1 := by
          intro y hy
          refine ⟨(hall y hy).1, ?_⟩
          rcases List.mem_cons.mp hy with h | h
          · rw [h]
            show 3 < p0
            omega
          · have h3 : p0 < y.1 := hb y h
            omega
        exact not_dvd_evalFac (by norm_num) h3lt
          (dvd_trans (by decide) hd)
      subst h30
      have htail : ∀ y ∈ t, Nat.Prime y.1 ∧ 3 < y.1 :=
        fun y hy => ⟨(hvt.2 y hy).1, hb y hy⟩
      have hcop : Nat.Coprime (3 ^ 3) (evalFac t) :=
        coprime_pow_evalFac (by norm_num) htail
      rw [evalFac_cons] at hd
      have h27 : 3 ^ 3 ∣ 3 ^ e0 :=
        Nat.Coprime.dvd_of_dvd_mul_right hcop hd
      have he3 : 3 ≤ e0 :=
        (Nat.pow_dvd_pow_iff_le_right (by norm_num)).mp h27
      exact ⟨e0, t, rfl, he3, htail, hvt⟩

/-- Correctness of the `b - a == 1` base case: the factored twins of
`bsBase` satisfy the splitter invariant. -/
theorem bsBase_ok (terms b : Nat) (hb1 : 1 ≤ b) (hb : b ≤ terms) :
    BSInv (bsBase (progSieve terms) b) := by
  have hge := sieveSizeOf_ge terms
  obtain ⟨hio, k0, hk0⟩ := oddPart_spec b hb1
  obtain ⟨hi1, hile⟩ := oddPart_le b hb1
  obtain ⟨hw1e, hw1v, hw1m⟩ := fac_set_bp_spec terms (oddPart b) 3 hio hi1
    (by omega) (by omega)
  obtain ⟨hw2e, hw2v, hw2m⟩ := fac_set_bp_spec terms (3 * 5 * 23 * 29) 3
    ⟨5002, by omega⟩ (by omega) (by omega) (by omega)
  have hfp0v : FacValid (fac_mul2 (fac_set_bp (progSieve terms) (oddPart b) 3)
      (fac_set_bp (progSieve terms) (3 * 5 * 23 * 29) 3)) := fac_mul2_valid hw1v hw2v
  have hfp0m : ∀ x ∈ fac_mul2 (fac_set_bp (progSieve terms) (oddPart b) 3)
      (fac_set_bp (progSieve terms) (3 * 5 * 23 * 29) 3), Nat.Prime x.1 ∧ 3 ≤ x.1 :=
    fun x hx => ⟨(hfp0v.2 x hx).1,
      fac_mul2_fst_bound (fun y hy => (hw1m y hy).2) (fun y hy => (hw2m y hy).2) x hx⟩
  have hfp0e : evalFac (fac_mul2 (fac_set_bp (progSieve terms) (oddPart b) 3)
      (fac_set_bp (progSieve terms) (3 * 5 * 23 * 29) 3)) =
      oddPart b ^ 3 * (3 * 5 * 23 * 29) ^ 3 := by
    rw [fac_mul2_eval, hw1e, hw2e]
  have hd27 : 3 ^ 3 ∣ evalFac (fac_mul2 (fac_set_bp (progSieve terms) (oddPart b) 3)
      (fac_set_bp (progSieve terms) (3 * 5 * 23 * 29) 3)) := by
    rw [hfp0e]
    exact ⟨oddPart b ^ 3 * 3335 ^ 3,
      by rw [show ((3 * 5 * 23 * 29 : Nat)) ^ 3 = 3 ^ 3 * 3335 ^ 3 from by norm_num]; ring⟩
  obtain ⟨e0, t0, hfp0eq, he0, ht0m, ht0v⟩ := facValid_head_three hfp0v hfp0m hd27
  rw [hfp0eq] at hfp0e
  have hfpeq : (bsBase (progSieve terms) b).fp = (3, e0 - 1) :: t0 := by
    show ((match fac_mul2 (fac_set_bp (progSieve terms) (oddPart b) 3)
        (fac_set_bp (progSieve terms) (3 * 5 * 23 * 29) 3) with
      | [] => ([] : FacList)
      | (f0, e1) :: t => (f0, e1 - 1) :: t) : FacList) = (3, e0 - 1) :: t0
    rw [hfp0eq]
  have hE3 : 3 * evalFac ((3, e0 - 1) :: t0) = evalFac ((3, e0) :: t0) := by
    rw [evalFac_cons, evalFac_cons]
    show 3 * (3 ^ (e0 - 1) * evalFac t0) = 3 ^ e0 * evalFac t0
    have h1 : e0 - 1 + 1 = e0 := by omega
    calc 3 * (3 ^ (e0 - 1) * evalFac t0) = 3 ^ (e0 - 1 + 1) * evalFac t0 := by ring
      _ = 3 ^ e0 * evalFac t0 := by rw [h1]
  have hNat : b * b * b * ((C / 24) * (C / 24)) * (C * 24) =
      2 ^ (3 * k0 + 15) * evalFac ((3, e0 - 1) :: t0) := by
    have hkey : 3 * ((C / 24) * (C / 24) * (C * 24)) = 2 ^ 15 * (3 * 5 * 23 * 29) ^ 3 := by
      decide
    apply Nat.eq_of_mul_eq_mul_left (show 0 < 3 by omega)
    calc 3 * (b * b * b * ((C / 24) * (C / 24)) * (C * 24))
        = (b * b * b) * (3 * ((C / 24) * (C / 24) * (C * 24))) := by ring
      _ = (b * b * b) * (2 ^ 15 * (3 * 5 * 23 * 29) ^ 3) := by rw [hkey]
      _ = ((2 ^ k0 * oddPart b) * (2 ^ k0 * oddPart b) * (2 ^ k0 * oddPart b)) *
          (2 ^ 15 * (3 * 5 * 23 * 29) ^ 3) := by rw [hk0]
      _ = 2 ^ (3 * k0 + 15) * (oddPart b ^ 3 * (3 * 5 * 23 * 29) ^ 3) := by ring
      _ = 2 ^ (3 * k0 + 15) * evalFac ((3, e0) :: t0) := by rw [hfp0e]
      _ = 2 ^ (3 * k0 + 15) * (3 * evalFac ((3, e0 - 1) :: t0)) := by rw [hE3]
      _ = 3 * (2 ^ (3 * k0 + 15) * evalFac ((3, e0 - 1) :: t0)) := by ring
  have hg1sp := fac_set_bp_spec terms (2 * b - 1) 1 ⟨b - 1, by omega⟩ (by omega)
    (by omega) (by omega)
  have hg2sp := fac_set_bp_spec terms (6 * b - 1) 1 ⟨3 * b - 1, by omega⟩ (by omega)
    (by omega) (by omega)
  have hg3sp := fac_set_bp_spec terms (6 * b - 5) 1 ⟨3 * b - 3, by omega⟩ (by omega)
    (by omega) (by omega)
  have hfgeq : (bsBase (progSieve terms) b).fg =
      fac_mul2 (fac_mul2 (fac_set_bp (progSieve terms) (2 * b - 1) 1)
        (fac_set_bp (progSieve terms) (6 * b - 1) 1))
        (fac_set_bp (progSieve terms) (6 * b - 5) 1) := rfl
  have hfg12v := fac_mul2_valid hg1sp.2.1 hg2sp.2.1
  have hfgv := fac_mul2_valid hfg12v hg3sp.2.1
  have hfgm : ∀ x ∈ fac_mul2 (fac_mul2 (fac_set_bp (progSieve terms) (2 * b - 1) 1)
      (fac_set_bp (progSieve terms) (6 * b - 1) 1))
      (fac_set_bp (progSieve terms) (6 * b - 5) 1), Nat.Prime x.1 ∧ 3 ≤ x.1 :=
    fun x hx => ⟨(hfgv.2 x hx).1,
      fac_mul2_fst_bound
        (fac_mul2_fst_bound (fun y hy => (hg1sp.2.2 y hy).2)
          (fun y hy => (hg2sp.2.2 y hy).2))
        (fun y hy => (hg3sp.2.2 y hy).2) x hx⟩
  have hfge : evalFac (fac_mul2 (fac_mul2 (fac_set_bp (progSieve terms) (2 * b - 1) 1)
      (fac_set_bp (progSieve terms) (6 * b - 1) 1))
      (fac_set_bp (progSieve terms) (6 * b - 5) 1)) =
      (2 * b - 1) * (6 * b - 1) * (6 * b - 5) := by
    rw [fac_mul2_eval, fac_mul2_eval, hg1sp.1, hg2sp.1, hg3sp.1, pow_one, pow_one, pow_one]
  refine ⟨⟨3 * k0 + 15, ?_⟩, ?_, ?_, ?_, ?_, ?_⟩
  · rw [hfpeq]
    show pTerm b = ((2 ^ (3 * k0 + 15) * evalFac ((3, e0 - 1) :: t0) : Nat) : Int)
    rw [← hNat, pTerm]
    push_cast
    ring
  · rw [hfpeq]
    refine facValid_cons.mpr ⟨fun y hy => ?_, by norm_num, by omega, ht0v⟩
    show 3 < y.1
    exact (ht0m y hy).2
  · rw [hfpeq]
    refine odd_evalFac ?_
    intro x hx
    rcases List.mem_cons.mp hx with h | h
    · rw [h]
      exact ⟨by norm_num, by omega⟩
    · exact ⟨(ht0m x h).1, by have := (ht0m x h).2; omega⟩
  · rw [hfgeq, hfge]
    show gTerm b = (((2 * b - 1) * (6 * b - 1) * (6 * b - 5) : Nat) : Int)
    rw [gTerm]
    push_cast
    ring
  · rw [hfgeq]
    exact hfgv
  · rw [hfgeq]
    exact odd_evalFac hfgm

/-! ## The splitter invariant and the fac-free mirror -/

theorem bsMid_bounds {a b : Nat} (h : 2 ≤ b - a) :
    a < bsMid a b ∧ bsMid a b < b ∧ bsMid a b - a < b - a ∧ b - bsMid a b < b - a := by
  rw [bsMid]
  omega

theorem evalFac_one_le {l : FacList} (hv : FacValid l) : 1 ≤ evalFac l :=
  evalFac_pos l (fun x hx => (hv.2 x hx).1.pos)

/-- The merge step preserves the factored-twin invariant and agrees with the
fac-free mirror's merge step. -/
theorem mkNode_inv (terms b level : Nat) {L R : BSRet} (hL : BSInv L) (hR : BSInv R) :
    BSInv (mkNode terms b level L R) ∧
    mkNodeG terms b level ⟨L.p, L.q, L.g⟩ ⟨R.p, R.q, R.g⟩ =
      ⟨(mkNode terms b level L R).p, (mkNode terms b level L R).q,
       (mkNode terms b level L R).g⟩ := by
  obtain ⟨⟨kL, hkL⟩, hvL, hoL, hgL, hgvL, hgoL⟩ := hL
  obtain ⟨⟨kR, hkR⟩, hvR, hoR, hgR, hgvR, hgoR⟩ := hR
  by_cases hlev : 4 ≤ level
  · have hdp : (evalFac R.fp : Int) ∣ R.p :=
      ⟨(2 : Int) ^ kR, by rw [hkR]; push_cast; ring⟩
    have hdg : (evalFac L.fg : Int) ∣ L.g := ⟨1, by rw [hgL, mul_one]⟩
    obtain ⟨s1, s2, s3, s4, s5, s6, s7⟩ :=
      fac_remove_gcd_spec R.p L.g R.fp L.fg hvR hgvL hdp hdg
    have hDpos : 0 < evalFac (facGcdSub R.fp L.fg).2.2 := by
      rcases Nat.eq_zero_or_pos (evalFac (facGcdSub R.fp L.fg).2.2) with h0 | h0
      · exfalso
        rw [h0, Nat.mul_zero] at s3
        have := evalFac_one_le hvR
        omega
      · exact h0
    have hDne : ((evalFac (facGcdSub R.fp L.fg).2.2 : Nat) : Int) ≠ 0 :=
      Int.natCast_ne_zero.mpr (by omega)
    have hmk : mkNode terms b level L R =
        ⟨L.p * (fac_remove_gcd R.p R.fp L.g L.fg).p,
         L.q * (fac_remove_gcd R.p R.fp L.g L.fg).p +
           R.q * (fac_remove_gcd R.p R.fp L.g L.fg).g,
         if b < terms then (fac_remove_gcd R.p R.fp L.g L.fg).g * R.g
           else (fac_remove_gcd R.p R.fp L.g L.fg).g,
         fac_mul2 L.fp (fac_remove_gcd R.p R.fp L.g L.fg).fp,
         if b < terms then fac_mul2 (fac_remove_gcd R.p R.fp L.g L.fg).fg R.fg
           else (fac_remove_gcd R.p R.fp L.g L.fg).fg⟩ := by
      simp only [mkNode, if_pos hlev]
    have hredp : (fac_remove_gcd R.p R.fp L.g L.fg).p =
        ((2 ^ kR * evalFac (fac_remove_gcd R.p R.fp L.g L.fg).fp : Nat) : Int) := by
      apply mul_right_cancel₀ hDne
      rw [s1]
      conv_lhs => rw [hkR]
      rw [← s3]
      push_cast
      ring
    have hredg : (fac_remove_gcd R.p R.fp L.g L.fg).g =
        ((evalFac (fac_remove_gcd R.p R.fp L.g L.fg).fg : Nat) : Int) := by
      apply mul_right_cancel₀ hDne
      rw [s2]
      conv_lhs => rw [hgL]
      rw [← s4]
      push_cast
      ring
    have hgcd : Int.gcd R.p L.g = evalFac (facGcdSub R.fp L.fg).2.2 := by
      rw [facGcdSub_mins_gcd hvR hgvL, hkR, hgL, Int.gcd_natCast_natCast]
      exact Nat.Coprime.gcd_mul_left_cancel _
        (Nat.Coprime.pow_left _ (Nat.coprime_two_left.mpr hgoL))
    have hmkG : mkNodeG terms b level ⟨L.p, L.q, L.g⟩ ⟨R.p, R.q, R.g⟩ =
        ⟨L.p * (fac_remove_gcd R.p R.fp L.g L.fg).p,
         L.q * (fac_remove_gcd R.p R.fp L.g L.fg).p +
           R.q * (fac_remove_gcd R.p R.fp L.g L.fg).g,
         if b < terms then (fac_remove_gcd R.p R.fp L.g L.fg).g * R.g
           else (fac_remove_gcd R.p R.fp L.g L.fg).g⟩ := by
      have hpj : R.p / ((evalFac (facGcdSub R.fp L.fg).2.2 : Nat) : Int) =
          (fac_remove_gcd R.p R.fp L.g L.fg).p :=
        Int.ediv_eq_of_eq_mul_left hDne s1.symm
      have hg1 : L.g / ((evalFac (facGcdSub R.fp L.fg).2.2 : Nat) : Int) =
          (fac_remove_gcd R.p R.fp L.g L.fg).g :=
        Int.ediv_eq_of_eq_mul_left hDne s2.symm
      simp only [mkNodeG, if_pos hlev]
      rw [hgcd, hpj, hg1]
    rw [hmk, hmkG]
    refine ⟨⟨⟨kL + kR, ?_⟩, ?_, ?_, ?_, ?_, ?_⟩, rfl⟩
    · show L.p * (fac_remove_gcd R.p R.fp L.g L.fg).p =
        ((2 ^ (kL + kR) *
          evalFac (fac_mul2 L.fp (fac_remove_gcd R.p R.fp L.g L.fg).fp) : Nat) : Int)
      rw [fac_mul2_eval, hkL, hredp]
      push_cast
      ring
    · show FacValid (fac_mul2 L.fp (fac_remove_gcd R.p R.fp L.g L.fg).fp)
      exact fac_mul2_valid hvL s5
    · show Odd (evalFac (fac_mul2 L.fp (fac_remove_gcd R.p R.fp L.g L.fg).fp))
      rw [fac_mul2_eval]
      exact Odd.mul hoL (odd_of_dvd_odd ⟨evalFac (facGcdSub R.fp L.fg).2.2, s3.symm⟩ hoR)
    · show (if b < terms then (fac_remove_gcd R.p R.fp L.g L.fg).g * R.g
          else (fac_remove_gcd R.p R.fp L.g L.fg).g) =
        ((evalFac (if b < terms
            then fac_mul2 (fac_remove_gcd R.p R.fp L.g L.fg).fg R.fg
            else (fac_remove_gcd R.p R.fp L.g L.fg).fg) : Nat) : Int)
      by_cases hbt : b < terms
      · rw [if_pos hbt, if_pos hbt, fac_mul2_eval, hredg, hgR]
        push_cast
        ring
      · rw [if_neg hbt, if_neg hbt]
        exact hredg
    · show FacValid (if b < terms
          then fac_mul2 (fac_remove_gcd R.p R.fp L.g L.fg).fg R.fg
          else (fac_remove_gcd R.p R.fp L.g L.fg).fg)
      by_cases hbt : b < terms
      · rw [if_pos hbt]
        exact fac_mul2_valid s6 hgvR
      · rw [if_neg hbt]
        exact s6
    · show Odd (evalFac (if b < terms
          then fac_mul2 (fac_remove_gcd R.p R.fp L.g L.fg).fg R.fg
          else (fac_remove_gcd R.p R.fp L.g L.fg).fg))
      by_cases hbt : b < terms
      · rw [if_pos hbt, fac_mul2_eval]
        exact Odd.mul
          (odd_of_dvd_odd ⟨evalFac (facGcdSub R.fp L.fg).2.2, s4.symm⟩ hgoL) hgoR
      · rw [if_neg hbt]
        exact odd_of_dvd_odd ⟨evalFac (facGcdSub R.fp L.fg).2.2, s4.symm⟩ hgoL
  · have hmk : mkNode terms b level L R =
        ⟨L.p * R.p, L.q * R.p + R.q * L.g,
         if b < terms then L.g * R.g else L.g,
         fac_mul2 L.fp R.fp,
         if b < terms then fac_mul2 L.fg R.fg else L.fg⟩ := by
      simp only [mkNode, if_neg hlev]
    have hmkG : mkNodeG terms b level ⟨L.p, L.q, L.g⟩ ⟨R.p, R.q, R.g⟩ =
        ⟨L.p * R.p, L.q * R.p + R.q * L.g,
         if b < terms then L.g * R.g else L.g⟩ := by
      simp only [mkNodeG, if_neg hlev, Int.ediv_one]
    rw [hmk, hmkG]
    refine ⟨⟨⟨kL + kR, ?_⟩, ?_, ?_, ?_, ?_, ?_⟩, rfl⟩
    · show L.p * R.p = ((2 ^ (kL + kR) * evalFac (fac_mul2 L.fp R.fp) : Nat) : Int)
      rw [fac_mul2_eval, hkL, hkR]
      push_cast
      ring
    · show FacValid (fac_mul2 L.fp R.fp)
      exact fac_mul2_valid hvL hvR
    · show Odd (evalFac (fac_mul2 L.fp R.fp))
      rw [fac_mul2_eval]
      exact Odd.mul hoL hoR
    · show (if b < terms then L.g * R.g else L.g) =
        ((evalFac (if b < terms then fac_mul2 L.fg R.fg else L.fg) : Nat) : Int)
      by_cases hbt : b < terms
      · rw [if_pos hbt, if_pos hbt, fac_mul2_eval, hgL, hgR]
        push_cast
        ring
      · rw [if_neg hbt, if_neg hbt]
        exact hgL
    · show FacValid (if b < terms then fac_mul2 L.fg R.fg else L.fg)
      by_cases hbt : b < terms
      · rw [if_pos hbt]
        exact fac_mul2_valid hgvL hgvR
      · rw [if_neg hbt]
        exact hgvL
    · show Odd (evalFac (if b < terms then fac_mul2 L.fg R.fg else L.fg))
      by_cases hbt : b < terms
      · rw [if_pos hbt, fac_mul2_eval]
        exact Odd.mul hgoL hgoR
      · rw [if_neg hbt]
        exact hgoL

/-- Master invariant of the splitter: every `bs` value on a range
`a < b <= terms` satisfies the factored-twin invariant, and the exact
triple it produces coincides with the fac-free mirror `bsG`. -/
theorem bsF_master (terms : Nat) : ∀ fuel a b level, a < b → b ≤ terms → b - a ≤ fuel →
    BSInv (bsF (progSieve terms) terms fuel a b level) ∧
    bsG terms fuel a b level =
      ⟨(bsF (progSieve terms) terms fuel a b level).p,
       (bsF (progSieve terms) terms fuel a b level).q,
       (bsF (progSieve terms) terms fuel a b level).g⟩ := by
  intro fuel
  induction fuel with
  | zero =>
      intro a b level h1 h2 h3
      exfalso
      omega
  | succ f ih =>
      intro a b level h1 h2 h3
      by_cases hbase : b - a = 1
      · rw [bsF, if_pos hbase, bsG, if_pos hbase]
        exact ⟨bsBase_ok terms b (by omega) h2, rfl⟩
      · have hm := bsMid_bounds (show 2 ≤ b - a by omega)
        obtain ⟨hIL, hGL⟩ := ih a (bsMid a b) (level + 1) hm.1 (by omega) (by omega)
        obtain ⟨hIR, hGR⟩ := ih (bsMid a b) b (level + 1) hm.2.1 h2 (by omega)
        rw [bsF, if_neg hbase, bsG, if_neg hbase, hGL, hGR]
        exact mkNode_inv terms b level hIL hIR

/-- Termination in fuel form: any fuel at least `b - a` produces the same
value, so the recursion with fuel `b - a` is the stable result. -/
theorem bsF_fuel_congr (sv : SieveMap) (terms : Nat) :
    ∀ n f1 f2 a b level, b - a ≤ n → a < b → b - a ≤ f1 → b - a ≤ f2 →
      bsF sv terms f1 a b level = bsF sv terms f2 a b level := by
  intro n
  induction n with
  | zero =>
      intro f1 f2 a b level h0 h1 hf1 hf2
      exfalso
      omega
  | succ m ih =>
      intro f1 f2 a b level h0 h1 hf1 hf2
      rcases f1 with _ | f1
      · exfalso
        omega
      rcases f2 with _ | f2
      · exfalso
        omega
      rw [bsF, bsF]
      by_cases hbase : b - a = 1
      · rw [if_pos hbase, if_pos hbase]
      · rw [if_neg hbase, if_neg hbase]
        have hm := bsMid_bounds (show 2 ≤ b - a by omega)
        rw [ih f1 f2 a (bsMid a b) (level + 1) (by omega) hm.1 (by omega) (by omega),
          ih f1 f2 (bsMid a b) b (level + 1) (by omega) hm.2.1 (by omega) (by omega)]

/-! ## Claim C7 -/

/-- Claim C7: throughout the recursion (any range `a < b <= terms` at any
level), `fg` evaluates exactly to `g` (an odd value), `fp` evaluates to `p`
with every factor of two removed (the sieve indexes odd integers only), and
consequently the factored-form GCD that `fac_remove_gcd` computes between
the right child's `p` and the left child's `g` divides both exact integers,
so the two exact divisions are well-defined. -/
theorem claim_C7 (terms a b level : Nat) (h1 : a < b) (h2 : b ≤ terms) :
    ((∃ k : Nat, (bsRun terms a b level).p =
        ((2 ^ k * evalFac (bsRun terms a b level).fp : Nat) : Int)) ∧
      Odd (evalFac (bsRun terms a b level).fp) ∧
      FacValid (bsRun terms a b level).fp ∧
      (bsRun terms a b level).g =
        ((evalFac (bsRun terms a b level).fg : Nat) : Int) ∧
      Odd (evalFac (bsRun terms a b level).fg) ∧
      FacValid (bsRun terms a b level).fg) ∧
    (2 ≤ b - a →
      ((bs_mul (facGcdSub (bsRun terms (bsMid a b) b (level + 1)).fp
            (bsRun terms a (bsMid a b) (level + 1)).fg).2.2 0
          (facGcdSub (bsRun terms (bsMid a b) b (level + 1)).fp
            (bsRun terms a (bsMid a b) (level + 1)).fg).2.2.length : Int) ∣
          (bsRun terms (bsMid a b) b (level + 1)).p ∧
        (bs_mul (facGcdSub (bsRun terms (bsMid a b) b (level + 1)).fp
            (bsRun terms a (bsMid a b) (level + 1)).fg).2.2 0
          (facGcdSub (bsRun terms (bsMid a b) b (level + 1)).fp
            (bsRun terms a (bsMid a b) (level + 1)).fg).2.2.length : Int) ∣
          (bsRun terms a (bsMid a b) (level + 1)).g)) := by
  simp only [bsRun]
  obtain ⟨⟨k, hk⟩, hv, ho, hg, hgv, hgo⟩ :=
    (bsF_master terms (b - a) a b level h1 h2 (le_refl _)).1
  refine ⟨⟨⟨k, hk⟩, ho, hv, hg, hgo, hgv⟩, ?_⟩
  intro hba
  have hm := bsMid_bounds hba
  obtain ⟨⟨kL, hkL⟩, hvL, hoL, hgL, hgvL, hgoL⟩ :=
    (bsF_master terms (bsMid a b - a) a (bsMid a b) (level + 1) hm.1 (by omega)
      (le_refl _)).1
  obtain ⟨⟨kR, hkR⟩, hvR, hoR, hgR, hgvR, hgoR⟩ :=
    (bsF_master terms (b - bsMid a b) (bsMid a b) b (level + 1) hm.2.1 h2
      (le_refl _)).1
  rw [bs_mul_eval]
  constructor
  · have hd1 : evalFac (facGcdSub
        (bsF (progSieve terms) terms (b - bsMid a b) (bsMid a b) b (level + 1)).fp
        (bsF (progSieve terms) terms (bsMid a b - a) a (bsMid a b) (level + 1)).fg).2.2 ∣
        evalFac (bsF (progSieve terms) terms (b - bsMid a b) (bsMid a b) b (level + 1)).fp := by
      rw [facGcdSub_mins_gcd hvR hgvL]
      exact Nat.gcd_dvd_left _ _
    have hd2 : (evalFac (bsF (progSieve terms) terms (b - bsMid a b) (bsMid a b) b
        (level + 1)).fp : Int) ∣
        (bsF (progSieve terms) terms (b - bsMid a b) (bsMid a b) b (level + 1)).p :=
      ⟨(2 : Int) ^ kR, by rw [hkR]; push_cast; ring⟩
    exact dvd_trans (Int.natCast_dvd_natCast.mpr hd1) hd2
  · rw [hgL]
    refine Int.natCast_dvd_natCast.mpr ?_
    rw [facGcdSub_mins_gcd hvR hgvL]
    exact Nat.gcd_dvd_right _ _

theorem claim_C7_witness :
    0 < 2 ∧ 2 ≤ 2 ∧
      (((∃ k : Nat, (bsRun 2 0 2 0).p =
            ((2 ^ k * evalFac (bsRun 2 0 2 0).fp : Nat) : Int)) ∧
          Odd (evalFac (bsRun 2 0 2 0).fp) ∧
          FacValid (bsRun 2 0 2 0).fp ∧
          (bsRun 2 0 2 0).g = ((evalFac (bsRun 2 0 2 0).fg : Nat) : Int) ∧
          Odd (evalFac (bsRun 2 0 2 0).fg) ∧
          FacValid (bsRun 2 0 2 0).fg) ∧
        (2 ≤ 2 - 0 →
          ((bs_mul (facGcdSub (bsRun 2 (bsMid 0 2) 2 (0 + 1)).fp
                (bsRun 2 0 (bsMid 0 2) (0 + 1)).fg).2.2 0
              (facGcdSub (bsRun 2 (bsMid 0 2) 2 (0 + 1)).fp
                (bsRun 2 0 (bsMid 0 2) (0 + 1)).fg).2.2.length : Int) ∣
              (bsRun 2 (bsMid 0 2) 2 (0 + 1)).p ∧
            (bs_mul (facGcdSub (bsRun 2 (bsMid 0 2) 2 (0 + 1)).fp
                (bsRun 2 0 (bsMid 0 2) (0 + 1)).fg).2.2 0
              (facGcdSub (bsRun 2 (bsMid 0 2) 2 (0 + 1)).fp
                (bsRun 2 0 (bsMid 0 2) (0 + 1)).fg).2.2.length : Int) ∣
              (bsRun 2 0 (bsMid 0 2) (0 + 1)).g))) :=
  ⟨by omega, by omega, claim_C7 2 0 2 0 (by omega) (by omega)⟩

/-! ## Claim C8 -/

/-- Claim C8: whenever `b - a >= 2`, the split point
`mid = a + (b-a)*0.54` lies strictly between `a` and `b`, both sub-ranges
are strictly smaller than `[a, b)`, and the recursion of `bs` terminates:
fuel `b - a` suffices, and any larger fuel yields the same value. -/
theorem claim_C8 (a b : Nat) (h : 2 ≤ b - a) :
    a < bsMid a b ∧ bsMid a b < b ∧
    bsMid a b - a < b - a ∧ b - bsMid a b < b - a ∧
    (∀ sv terms level fuel, b - a ≤ fuel →
      bsF sv terms fuel a b level = bsF sv terms (b - a) a b level) := by
  refine ⟨(bsMid_bounds h).1, (bsMid_bounds h).2.1, (bsMid_bounds h).2.2.1,
    (bsMid_bounds h).2.2.2, ?_⟩
  intro sv terms level fuel hf
  exact bsF_fuel_congr sv terms fuel fuel (b - a) a b level hf (by omega)
    hf (le_refl _)

theorem claim_C8_witness :
    2 ≤ 5 - 0 ∧
      (0 < bsMid 0 5 ∧ bsMid 0 5 < 5 ∧
        bsMid 0 5 - 0 < 5 - 0 ∧ 5 - bsMid 0 5 < 5 - 0 ∧
        (∀ sv terms level fuel, 5 - 0 ≤ fuel →
          bsF sv terms fuel 0 5 level = bsF sv terms (5 - 0) 0 5 level)) :=
  ⟨by omega, claim_C8 0 5 (by omega)⟩

/-! ## Closed forms and the scaling of the splitter output -/

theorem pTerm_pos (b : Nat) (hb : 1 ≤ b) : 0 < pTerm b := by
  rw [pTerm]
  have h1 : (0 : Int) < (b : Int) := by exact_mod_cast hb
  have h2 : (0 : Int) < ((C / 24 * (C / 24) : Nat) : Int) :=
    Int.natCast_pos.mpr (by decide)
  have h3 : (0 : Int) < ((C * 24 : Nat) : Int) := Int.natCast_pos.mpr (by decide)
  exact mul_pos (mul_pos (mul_pos (mul_pos h1 h1) h1) h2) h3

theorem gTerm_pos (b : Nat) (hb : 1 ≤ b) : 0 < gTerm b := by
  rw [gTerm]
  have h1 : (0 : Int) < ((2 * b - 1 : Nat) : Int) := Int.natCast_pos.mpr (by omega)
  have h2 : (0 : Int) < ((6 * b - 1 : Nat) : Int) := Int.natCast_pos.mpr (by omega)
  have h3 : (0 : Int) < ((6 * b - 5 : Nat) : Int) := Int.natCast_pos.mpr (by omega)
  exact mul_pos (mul_pos h1 h2) h3

theorem PP_pos (a b : Nat) : 0 < PP a b :=
  Finset.prod_pos (fun j _ => pTerm_pos (j + 1) (by omega))

theorem GG_pos (a b : Nat) : 0 < GG a b :=
  Finset.prod_pos (fun j _ => gTerm_pos (j + 1) (by omega))

theorem PP_split {a m b : Nat} (h1 : a ≤ m) (h2 : m ≤ b) :
    PP a m * PP m b = PP a b := by
  rw [PP, PP, PP]
  exact Finset.prod_Ico_consecutive _ h1 h2

theorem GG_split {a m b : Nat} (h1 : a ≤ m) (h2 : m ≤ b) :
    GG a m * GG m b = GG a b := by
  rw [GG, GG, GG]
  exact Finset.prod_Ico_consecutive _ h1 h2

theorem QQ_split {a m b : Nat} (h1 : a ≤ m) (h2 : m ≤ b) :
    QQ a b = QQ a m * PP m b + QQ m b * GG a m := by
  rw [QQ, QQ, QQ, ← Finset.sum_Ico_consecutive _ h1 h2, Finset.sum_mul, Finset.sum_mul]
  congr 1
  · refine Finset.sum_congr rfl ?_
    intro j hj
    have hjm : j + 1 ≤ m := by
      have := (Finset.mem_Ico.mp hj).2
      omega
    rw [← PP_split hjm h2]
    ring
  · refine Finset.sum_congr rfl ?_
    intro j hj
    have hmj : m ≤ j := (Finset.mem_Ico.mp hj).1
    rw [← GG_split h1 hmj]
    ring

theorem PP_single (a : Nat) : PP a (a + 1) = pTerm (a + 1) := by
  rw [PP, Nat.Ico_succ_singleton, Finset.prod_singleton]

theorem GG_single (a : Nat) : GG a (a + 1) = gTerm (a + 1) := by
  rw [GG, Nat.Ico_succ_singleton, Finset.prod_singleton]

theorem QQ_single (a : Nat) : QQ a (a + 1) = qTerm (a + 1) := by
  rw [QQ, Nat.Ico_succ_singleton, Finset.sum_singleton, GG, PP, Finset.Ico_self,
    Finset.Ico_self, Finset.prod_empty, Finset.prod_empty]
  ring

/-- One merge of two scaled triples over adjacent ranges, with an exact
common divisor `d` taken out of the right `P` and the left `G`, is again a
scaled triple. -/
theorem Scaled_merge {terms a m b : Nat} {L R : Triple} {d : Int}
    (ha : a ≤ m) (hm : m ≤ b) (hmt : m < terms) (hb : b ≤ terms)
    (hL : Scaled terms a m L) (hR : Scaled terms m b R)
    (hd0 : 0 < d) (hdp : d ∣ R.p) (hdg : d ∣ L.g) :
    Scaled terms a b ⟨L.p * (R.p / d), L.q * (R.p / d) + R.q * (L.g / d),
      if b < terms then L.g / d * R.g else L.g / d⟩ := by
  obtain ⟨dL, hdL0, hpL, hqL, hgcL⟩ := hL
  obtain ⟨dR, hdR0, hpR, hqR, hgcR⟩ := hR
  refine ⟨dL * d * dR, by positivity, ?_, ?_, ?_⟩
  · show L.p * (R.p / d) * (dL * d * dR) = PP a b
    rw [← PP_split ha hm, ← hpL, ← hpR,
      show L.p * (R.p / d) * (dL * d * dR) = L.p * dL * (R.p / d * d * dR) from by ring,
      Int.ediv_mul_cancel hdp]
  · show (L.q * (R.p / d) + R.q * (L.g / d)) * (dL * d * dR) = QQ a b
    rw [QQ_split ha hm, ← hqL, ← hpR, ← hqR, ← hgcL hmt,
      show (L.q * (R.p / d) + R.q * (L.g / d)) * (dL * d * dR) =
        L.q * dL * (R.p / d * d * dR) + R.q * dR * (L.g / d * d * dL) from by ring,
      Int.ediv_mul_cancel hdp, Int.ediv_mul_cancel hdg]
  · intro hbt
    show (if b < terms then L.g / d * R.g else L.g / d) * (dL * d * dR) = GG a b
    rw [if_pos hbt, ← GG_split ha hm, ← hgcL hmt, ← hgcR hbt,
      show L.g / d * R.g * (dL * d * dR) = L.g / d * d * dL * (R.g * dR) from by ring,
      Int.ediv_mul_cancel hdg]

/-- The fac-free mirror produces, on every range `a < b <= terms`, the
closed forms `P`, `Q` (and `G` while `b < terms`) divided by one positive
integer: the product of all GCDs removed inside the range. -/
theorem bsG_scaled (terms : Nat) : ∀ fuel a b level, a < b → b ≤ terms →
    b - a ≤ fuel → Scaled terms a b (bsG terms fuel a b level) := by
  intro fuel
  induction fuel with
  | zero =>
      intro a b level h1 h2 h3
      exfalso
      omega
  | succ f ih =>
      intro a b level h1 h2 h3
      by_cases hbase : b - a = 1
      · rw [bsG, if_pos hbase]
        have hb : b = a + 1 := by omega
        subst hb
        refine ⟨1, one_pos, ?_, ?_, fun _ => ?_⟩
        · show pTerm (a + 1) * 1 = PP a (a + 1)
          rw [mul_one, PP_single]
        · show qTerm (a + 1) * 1 = QQ a (a + 1)
          rw [mul_one, QQ_single]
        · show gTerm (a + 1) * 1 = GG a (a + 1)
          rw [mul_one, GG_single]
      · have hmb := bsMid_bounds (show 2 ≤ b - a by omega)
        have SL := ih a (bsMid a b) (level + 1) hmb.1 (by omega) (by omega)
        have SR := ih (bsMid a b) b (level + 1) hmb.2.1 h2 (by omega)
        rw [bsG, if_neg hbase]
        by_cases hlev : 4 ≤ level
        · have hRp0 : (bsG terms f (bsMid a b) b (level + 1)).p ≠ 0 := by
            obtain ⟨dR, hdR0, hpR, _, _⟩ := SR
            intro h0
            rw [h0, zero_mul] at hpR
            have := PP_pos (bsMid a b) b
            omega
          have hd0 : (0 : Int) < ((Int.gcd (bsG terms f (bsMid a b) b (level + 1)).p
              (bsG terms f a (bsMid a b) (level + 1)).g : Nat) : Int) :=
            Int.natCast_pos.mpr (Nat.pos_of_ne_zero
              (fun hz => hRp0 ((Int.gcd_eq_zero_iff.mp hz).1)))
          simp only [mkNodeG, if_pos hlev]
          exact Scaled_merge (le_of_lt hmb.1) (le_of_lt hmb.2.1) (by omega) h2 SL SR
            hd0 Int.gcd_dvd_left Int.gcd_dvd_right
        · simp only [mkNodeG, if_neg hlev]
          exact Scaled_merge (le_of_lt hmb.1) (le_of_lt hmb.2.1) (by omega) h2 SL SR
            one_pos (one_dvd _) (one_dvd _)

/-! ## Claim C1 -/

/-- Claim C1 (amended): for `a < b < c <= terms`, the merged triple and the
directly split triple are not bit-identical in general; instead both are
the closed forms `(P, Q)` of the range `[a, c)` divided by positive
integers (the GCDs cancelled inside each computation), so their
cross-products agree exactly. -/
theorem claim_C1 (terms a b c level : Nat) (h1 : a < b) (h2 : b < c)
    (h3 : c ≤ terms) :
    ∃ d1 d2 : Int, 0 < d1 ∧ 0 < d2 ∧
      (combineTriple (bsTriple terms a b level) (bsTriple terms b c level)).p * d1 =
        PP a c ∧
      (combineTriple (bsTriple terms a b level) (bsTriple terms b c level)).q * d1 =
        QQ a c ∧
      (bsTriple terms a c level).p * d2 = PP a c ∧
      (bsTriple terms a c level).q * d2 = QQ a c ∧
      (combineTriple (bsTriple terms a b level) (bsTriple terms b c level)).p *
          (bsTriple terms a c level).q =
        (bsTriple terms a c level).p *
          (combineTriple (bsTriple terms a b level) (bsTriple terms b c level)).q := by
  have e1 : bsTriple terms a b level = bsG terms (b - a) a b level :=
    ((bsF_master terms (b - a) a b level h1 (by omega) (le_refl _)).2).symm
  have e2 : bsTriple terms b c level = bsG terms (c - b) b c level :=
    ((bsF_master terms (c - b) b c level h2 h3 (le_refl _)).2).symm
  have e3 : bsTriple terms a c level = bsG terms (c - a) a c level :=
    ((bsF_master terms (c - a) a c level (by omega) h3 (le_refl _)).2).symm
  rw [e1, e2, e3]
  obtain ⟨dL, hdL0, hpL, hqL, hgcL⟩ :=
    bsG_scaled terms (b - a) a b level h1 (by omega) (le_refl _)
  obtain ⟨dR, hdR0, hpR, hqR, hgcR⟩ :=
    bsG_scaled terms (c - b) b c level h2 h3 (le_refl _)
  obtain ⟨dS, hdS0, hpS, hqS, hgcS⟩ :=
    bsG_scaled terms (c - a) a c level (by omega) h3 (le_refl _)
  have hPm : (combineTriple (bsG terms (b - a) a b level)
      (bsG terms (c - b) b c level)).p * (dL * dR) = PP a c := by
    show (bsG terms (b - a) a b level).p * (bsG terms (c - b) b c level).p *
      (dL * dR) = PP a c
    rw [← PP_split (show a ≤ b by omega) (show b ≤ c by omega), ← hpL, ← hpR]
    ring
  have hQm : (combineTriple (bsG terms (b - a) a b level)
      (bsG terms (c - b) b c level)).q * (dL * dR) = QQ a c := by
    show ((bsG terms (b - a) a b level).q * (bsG terms (c - b) b c level).p +
      (bsG terms (c - b) b c level).q * (bsG terms (b - a) a b level).g) *
      (dL * dR) = QQ a c
    rw [QQ_split (show a ≤ b by omega) (show b ≤ c by omega), ← hqL, ← hpR, ← hqR,
      ← hgcL (show b < terms by omega)]
    ring
  refine ⟨dL * dR, dS, by positivity, hdS0, hPm, hQm, hpS, hqS, ?_⟩
  have key : (combineTriple (bsG terms (b - a) a b level)
        (bsG terms (c - b) b c level)).p * (bsG terms (c - a) a c level).q *
        (dL * dR * dS) =
      (bsG terms (c - a) a c level).p * (combineTriple (bsG terms (b - a) a b level)
        (bsG terms (c - b) b c level)).q * (dL * dR * dS) := by
    calc (combineTriple (bsG terms (b - a) a b level)
          (bsG terms (c - b) b c level)).p * (bsG terms (c - a) a c level).q *
          (dL * dR * dS)
        = (combineTriple (bsG terms (b - a) a b level)
            (bsG terms (c - b) b c level)).p * (dL * dR) *
          ((bsG terms (c - a) a c level).q * dS) := by ring
      _ = PP a c * QQ a c := by rw [hPm, hqS]
      _ = (bsG terms (c - a) a c level).p * dS *
          ((combineTriple (bsG terms (b - a) a b level)
            (bsG terms (c - b) b c level)).q * (dL * dR)) := by rw [hpS, hQm]
      _ = (bsG terms (c - a) a c level).p *
          (combineTriple (bsG terms (b - a) a b level)
            (bsG terms (c - b) b c level)).q * (dL * dR * dS) := by ring
  exact mul_right_cancel₀ (show dL * dR * dS ≠ 0 from ne_of_gt (by positivity)) key

theorem claim_C1_witness :
    0 < 1 ∧ 1 < 2 ∧ 2 ≤ 3 ∧
      (∃ d1 d2 : Int, 0 < d1 ∧ 0 < d2 ∧
        (combineTriple (bsTriple 3 0 1 0) (bsTriple 3 1 2 0)).p * d1 = PP 0 2 ∧
        (combineTriple (bsTriple 3 0 1 0) (bsTriple 3 1 2 0)).q * d1 = QQ 0 2 ∧
        (bsTriple 3 0 2 0).p * d2 = PP 0 2 ∧
        (bsTriple 3 0 2 0).q * d2 = QQ 0 2 ∧
        (combineTriple (bsTriple 3 0 1 0) (bsTriple 3 1 2 0)).p *
            (bsTriple 3 0 2 0).q =
          (bsTriple 3 0 2 0).p *
            (combineTriple (bsTriple 3 0 1 0) (bsTriple 3 1 2 0)).q) :=
  ⟨by omega, by omega, by omega, claim_C1 3 0 1 2 0 (by omega) (by omega) (by omega)⟩

/-- Refutation of the literal claim C1: at `terms = 22`, merging the
splitter's triples for `[0, 1)` and `[1, 17)` with the documented formula
does not reproduce the splitter's triple for `[0, 17)` bit-identically (the
split computation cancels GCDs the merged one does not see). -/
theorem claim_C1_counterexample :
    ¬ combineTriple (bsTriple 22 0 1 0) (bsTriple 22 1 17 0) = bsTriple 22 0 17 0 := by
  have e1 : bsTriple 22 0 1 0 = bsG 22 (1 - 0) 0 1 0 :=
    ((bsF_master 22 (1 - 0) 0 1 0 (by omega) (by omega) (le_refl _)).2).symm
  have e2 : bsTriple 22 1 17 0 = bsG 22 (17 - 1) 1 17 0 :=
    ((bsF_master 22 (17 - 1) 1 17 0 (by omega) (by omega) (le_refl _)).2).symm
  have e3 : bsTriple 22 0 17 0 = bsG 22 (17 - 0) 0 17 0 :=
    ((bsF_master 22 (17 - 0) 0 17 0 (by omega) (by omega) (le_refl _)).2).symm
  rw [e1, e2, e3]
  decide

/-! ## The reduction phase (`sum` and the rounds of `main`) -/

theorem stGet_set_self (st : Stacks) (i : Nat) (x : Triple) (h : i < st.length) :
    stGet (st.set i x) i = x := by
  simp [stGet, List.getD_eq_getElem?_getD, List.getElem?_set, h]

theorem stGet_set_ne (st : Stacks) (i j : Nat) (x : Triple) (h : j ≠ i) :
    stGet (st.set i x) j = stGet st j := by
  simp [stGet, List.getD_eq_getElem?_getD, List.getElem?_set, (Ne.symm h)]

theorem stGet_range_map (f : Nat → Triple) (n i : Nat) (h : i < n) :
    stGet ((List.range n).map f) i = f i := by
  simp [stGet, List.getD_eq_getElem?_getD, List.getElem?_map, List.getElem?_range, h]

theorem eq_of_mod_both {K i j : Nat} (h1 : i % K = 0) (h2 : j % K = 0)
    (h3 : j ≤ i) (h4 : i < j + K) : i = j := by
  have hd3 : K ∣ i - j :=
    Nat.dvd_sub' (Nat.dvd_of_mod_eq_zero h1) (Nat.dvd_of_mod_eq_zero h2)
  rcases Nat.eq_zero_or_pos (i - j) with hz | hpos
  · omega
  · have := Nat.le_of_dvd hpos hd3
    omega

theorem groupEnd_lt (terms threads k i : Nat) (ht : 0 < threads)
    (htt : threads ≤ terms) (h : i + k < threads) :
    groupEnd terms threads k i < terms := by
  rw [groupEnd, if_pos h]
  have hmid1 : 1 ≤ terms / threads := (Nat.one_le_div_iff ht).mpr htt
  have hmul : terms / threads * threads ≤ terms := Nat.div_mul_le_self terms threads
  have h1 : (i + k) * (terms / threads) + 1 * (terms / threads) ≤
      threads * (terms / threads) := by
    rw [← Nat.add_mul]
    exact Nat.mul_le_mul_right _ (by omega)
  have h2 : threads * (terms / threads) = terms / threads * threads :=
    Nat.mul_comm _ _
  omega

/-- One `sum(i, i+k, gflag)` merge of two scaled triples over adjacent
ranges is again a scaled triple, provided `gflag` is set whenever the
merged range stays short of `terms`. -/
theorem Scaled_sum {terms a m b : Nat} {x y : Triple} {gflag : Bool}
    (ha : a ≤ m) (hm : m ≤ b) (hmt : m < terms)
    (hx : Scaled terms a m x) (hy : Scaled terms m b y)
    (hgf : b < terms → gflag = true) :
    Scaled terms a b ⟨x.p * y.p, x.q * y.p + y.q * x.g,
      if gflag then x.g * y.g else x.g⟩ := by
  obtain ⟨dx, hdx0, hpx, hqx, hgx⟩ := hx
  obtain ⟨dy, hdy0, hpy, hqy, hgy⟩ := hy
  refine ⟨dx * dy, by positivity, ?_, ?_, ?_⟩
  · show x.p * y.p * (dx * dy) = PP a b
    rw [← PP_split ha hm, ← hpx, ← hpy]
    ring
  · show (x.q * y.p + y.q * x.g) * (dx * dy) = QQ a b
    rw [QQ_split ha hm, ← hqx, ← hpy, ← hqy, ← hgx hmt]
    ring
  · intro hbt
    show (if gflag then x.g * y.g else x.g) * (dx * dy) = GG a b
    rw [hgf hbt, if_pos rfl, ← GG_split ha hm, ← hgx hmt, ← hgy hbt]
    ring

/-- One inner merge pass of a reduction round turns the group invariant for
group size `k` into the invariant for group size `2k`. -/
theorem roundInner_ok (terms threads k : Nat) (ht : 0 < threads)
    (htt : threads ≤ terms) (hk : 0 < k) :
    ∀ fuel i0 st, threads ≤ i0 + fuel → i0 % (2 * k) = 0 → st.length = threads →
      (∀ i, i < threads → i % k = 0 → i0 ≤ i →
        Scaled terms (i * (terms / threads)) (groupEnd terms threads k i)
          (stGet st i)) →
      (∀ i, i < threads → i % (2 * k) = 0 → i < i0 →
        Scaled terms (i * (terms / threads)) (groupEnd terms threads (2 * k) i)
          (stGet st i)) →
      (roundInner threads k fuel i0 st).length = threads ∧
      (∀ i, i < threads → i % (2 * k) = 0 →
        Scaled terms (i * (terms / threads)) (groupEnd terms threads (2 * k) i)
          (stGet (roundInner threads k fuel i0 st) i)) := by
  intro fuel
  induction fuel with
  | zero =>
      intro i0 st hfuel h0 hlen hcur hpast
      rw [roundInner]
      exact ⟨hlen, fun i hi hmod => hpast i hi hmod (by omega)⟩
  | succ f ih =>
      intro i0 st hfuel h0 hlen hcur hpast
      rw [roundInner]
      by_cases hi0 : i0 < threads
      · rw [if_pos hi0]
        have hk2 : i0 % k = 0 := by
          obtain ⟨c, hc⟩ :=
            dvd_trans (⟨2, by ring⟩ : k ∣ 2 * k) (Nat.dvd_of_mod_eq_zero h0)
          rw [hc]
          exact Nat.mul_mod_right k c
        by_cases hik : i0 + k < threads
        · rw [if_pos hik]
          have hlen' : (sumStep st i0 k (decide (i0 + 2 * k < threads))).length =
              threads := by
            rw [sumStep, List.length_set, hlen]
          have hwrite : stGet (sumStep st i0 k (decide (i0 + 2 * k < threads))) i0 =
              ⟨(stGet st i0).p * (stGet st (i0 + k)).p,
               (stGet st i0).q * (stGet st (i0 + k)).p +
                 (stGet st (i0 + k)).q * (stGet st i0).g,
               if decide (i0 + 2 * k < threads)
                 then (stGet st i0).g * (stGet st (i0 + k)).g
                 else (stGet st i0).g⟩ := by
            rw [sumStep]
            exact stGet_set_self st i0 _ (by omega)
          have hother : ∀ j, j ≠ i0 →
              stGet (sumStep st i0 k (decide (i0 + 2 * k < threads))) j =
                stGet st j := by
            intro j hj
            rw [sumStep]
            exact stGet_set_ne st i0 j _ hj
          refine ih (i0 + 2 * k) _ (by omega)
            (by rw [Nat.add_mod_right]; exact h0) hlen' ?_ ?_
          · intro i hi hmod hge
            rw [hother i (by omega)]
            exact hcur i hi hmod (by omega)
          · intro i hi hmod hlt
            by_cases hio : i < i0
            · rw [hother i (by omega)]
              exact hpast i hi hmod hio
            · have hieq : i = i0 := eq_of_mod_both hmod h0 (by omega) (by omega)
              subst hieq
              rw [hwrite]
              have hSi0 := hcur i hi hk2 (le_refl _)
              have hSj := hcur (i + k) hik
                (by rw [Nat.add_mod_right]; exact hk2) (by omega)
              have hgk : groupEnd terms threads k i =
                  (i + k) * (terms / threads) := by
                rw [groupEnd, if_pos hik]
              have hgj : groupEnd terms threads k (i + k) =
                  groupEnd terms threads (2 * k) i := by
                rw [groupEnd, groupEnd, show i + k + k = i + 2 * k from by ring]
              have hmlt : (i + k) * (terms / threads) < terms := by
                have := groupEnd_lt terms threads k i ht htt hik
                rw [hgk] at this
                exact this
              rw [hgk] at hSi0
              rw [hgj] at hSj
              have hm2 : (i + k) * (terms / threads) ≤
                  groupEnd terms threads (2 * k) i := by
                rw [groupEnd]
                by_cases h2k : i + 2 * k < threads
                · rw [if_pos h2k]
                  exact Nat.mul_le_mul_right _ (by omega)
                · rw [if_neg h2k]
                  omega
              refine Scaled_sum (Nat.mul_le_mul_right _ (by omega)) hm2 hmlt
                hSi0 hSj ?_
              intro hbt
              by_cases h2k : i + 2 * k < threads
              · simp [h2k]
              · exfalso
                rw [groupEnd, if_neg h2k] at hbt
                omega
        · rw [if_neg hik]
          refine ih (i0 + 2 * k) st (by omega)
            (by rw [Nat.add_mod_right]; exact h0) hlen ?_ ?_
          · intro i hi hmod hge
            exact hcur i hi hmod (by omega)
          · intro i hi hmod hlt
            by_cases hio : i < i0
            · exact hpast i hi hmod hio
            · have hieq : i = i0 := eq_of_mod_both hmod h0 (by omega) (by omega)
              subst hieq
              have hgeq : groupEnd terms threads (2 * k) i =
                  groupEnd terms threads k i := by
                rw [groupEnd, groupEnd, if_neg (by omega), if_neg (by omega)]
              rw [hgeq]
              exact hcur i hi hk2 (le_refl _)
      · rw [if_neg hi0]
        exact ⟨hlen, fun i hi hmod => hpast i hi hmod (by omega)⟩

/-- The round loop preserves the group invariant, doubling the group size
until it covers all shards. -/
theorem roundsLoop_ok (terms threads csize : Nat) (ht : 0 < threads)
    (htt : threads ≤ terms) :
    ∀ fuel k st, 0 < k → csize ≤ k * 2 ^ fuel → st.length = threads →
      (∀ i, i < threads → i % k = 0 →
        Scaled terms (i * (terms / threads)) (groupEnd terms threads k i)
          (stGet st i)) →
      ∃ K, 0 < K ∧ csize ≤ K ∧
        (roundsLoop threads csize fuel k st).length = threads ∧
        (∀ i, i < threads → i % K = 0 →
          Scaled terms (i * (terms / threads)) (groupEnd terms threads K i)
            (stGet (roundsLoop threads csize fuel k st) i)) := by
  intro fuel
  induction fuel with
  | zero =>
      intro k st hk hcs hlen hinv
      rw [roundsLoop]
      have h1 : (2 : Nat) ^ 0 = 1 := rfl
      exact ⟨k, hk, by omega, hlen, hinv⟩
  | succ f ih =>
      intro k st hk hcs hlen hinv
      rw [roundsLoop]
      by_cases hkc : k < csize
      · rw [if_pos hkc]
        obtain ⟨hlen1, hinv1⟩ := roundInner_ok terms threads k ht htt hk threads 0 st
          (by omega) (Nat.zero_mod _) hlen
          (fun i hi hmod _ => hinv i hi hmod)
          (fun i _ _ hlt => absurd hlt (by omega))
        have hcs' : csize ≤ 2 * k * 2 ^ f := by
          have h1 : k * 2 ^ (f + 1) = 2 * k * 2 ^ f := by ring
          omega
        exact ih (2 * k) (roundInner threads k threads 0 st) (by omega) hcs'
          hlen1 hinv1
      · rw [if_neg hkc]
        exact ⟨k, hk, by omega, hlen, hinv⟩

theorem coresDepthF_ge : ∀ fuel d t, t ≤ 2 ^ (d + fuel) →
    t ≤ 2 ^ coresDepthF fuel d t := by
  intro fuel
  induction fuel with
  | zero =>
      intro d t h
      rw [coresDepthF]
      simpa using h
  | succ f ih =>
      intro d t h
      rw [coresDepthF]
      by_cases hc : 2 ^ d < t
      · rw [if_pos hc]
        refine ih (d + 1) t ?_
        have h1 : d + 1 + f = d + (f + 1) := by omega
        rw [h1]
        exact h
      · rw [if_neg hc]
        omega

theorem coresDepth_ge (t : Nat) : t ≤ 2 ^ coresDepth t := by
  rw [coresDepth]
  refine coresDepthF_ge t 0 t ?_
  have := Nat.lt_two_pow t
  simpa using this.le

theorem shard_range_ok (terms threads i : Nat) (ht : 0 < threads)
    (htt : threads ≤ terms) (hi : i < threads) :
    i * (terms / threads) < shardEnd terms threads i ∧
      shardEnd terms threads i ≤ terms := by
  have hmid1 : 1 ≤ terms / threads := (Nat.one_le_div_iff ht).mpr htt
  have hmul : terms / threads * threads ≤ terms := Nat.div_mul_le_self terms threads
  have hstep : i * (terms / threads) < (i + 1) * (terms / threads) :=
    mul_lt_mul_of_pos_right (by omega) (by omega)
  have hcap : (i + 1) * (terms / threads) ≤ terms := by
    have h1 : (i + 1) * (terms / threads) ≤ threads * (terms / threads) :=
      Nat.mul_le_mul_right _ (by omega)
    have h2 : threads * (terms / threads) = terms / threads * threads :=
      Nat.mul_comm _ _
    omega
  rw [shardEnd]
  by_cases hlast : i + 1 < threads
  · rw [if_pos hlast]
    exact ⟨hstep, hcap⟩
  · rw [if_neg hlast]
    exact ⟨by omega, le_refl terms⟩

/-- The final stack-0 pair of the fac-free pipeline is the closed forms of
the whole term range divided by one positive integer. -/
theorem pipelineG_scaled (terms threads : Nat) (ht : 0 < threads)
    (htt : threads ≤ terms) :
    ∃ dd : Int, 0 < dd ∧ (pipelineG terms threads).p * dd = PP 0 terms ∧
      (pipelineG terms threads).q * dd = QQ 0 terms := by
  have ht0 : ¬ terms = 0 := by omega
  rw [pipelineG, if_neg ht0, reduceAll]
  have hinit : ∀ i, i < threads → i % 1 = 0 →
      Scaled terms (i * (terms / threads)) (groupEnd terms threads 1 i)
        (stGet ((List.range threads).map (shardTripleG terms threads)) i) := by
    intro i hi _
    rw [stGet_range_map _ _ _ hi]
    obtain ⟨hab, hbt⟩ := shard_range_ok terms threads i ht htt hi
    exact bsG_scaled terms (shardEnd terms threads i - i * (terms / threads))
      (i * (terms / threads)) (shardEnd terms threads i) (coresDepth threads)
      hab hbt (le_refl _)
  obtain ⟨K, hK0, hKcs, hlen, hfin⟩ := roundsLoop_ok terms threads
    (2 ^ coresDepth threads) ht htt (coresDepth threads + 1) 1
    ((List.range threads).map (shardTripleG terms threads)) one_pos
    (by
      have h1 : (2 : Nat) ^ coresDepth threads ≤ 2 ^ (coresDepth threads + 1) :=
        Nat.pow_le_pow_right (by omega) (by omega)
      omega)
    (by rw [List.length_map, List.length_range]) hinit
  have h0 := hfin 0 ht (Nat.zero_mod K)
  have hKt : threads ≤ K := le_trans (coresDepth_ge threads) hKcs
  rw [groupEnd, if_neg (by omega), Nat.zero_mul] at h0
  obtain ⟨dd, hdd0, hp, hq, _⟩ := h0
  exact ⟨dd, hdd0, hp, hq⟩

/-- With a positive thread count at most `terms`, every shard range is
non-empty, and the pipeline over the splitter equals the pipeline over the
fac-free mirror. -/
theorem pipelinePQ_eq_G (terms threads : Nat) (ht : 0 < threads)
    (htt : threads ≤ terms) :
    pipelinePQ terms threads = pipelineG terms threads := by
  have ht0 : ¬ terms = 0 := by omega
  rw [pipelinePQ, pipelineG, if_neg ht0, if_neg ht0]
  have hmap : (List.range threads).map (shardTriple terms threads) =
      (List.range threads).map (shardTripleG terms threads) := by
    refine List.map_congr_left ?_
    intro i hi
    have hi' : i < threads := List.mem_range.mp hi
    obtain ⟨hab, hbt⟩ := shard_range_ok terms threads i ht htt hi'
    exact ((bsF_master terms (shardEnd terms threads i - i * (terms / threads))
      (i * (terms / threads)) (shardEnd terms threads i) (coresDepth threads)
      hab hbt (le_refl _)).2).symm
  rw [hmap]

/-! ## Claim C3 -/

/-- Claim C3 (amended): for a positive thread count at most `terms`, the
final exact pair `(P, Q)` in shard 0 is the closed-form pair of the whole
range divided by one positive integer; the integer depends on the thread
count (the GCD cancellations differ with the shard layout), so two runs
with different thread counts agree on the cross-products `P1*Q2 = P2*Q1`
(hence on the value `Q/P`), but not bit-identically. -/
theorem claim_C3 (terms t1 t2 : Nat) (h1 : 0 < t1) (h2 : t1 ≤ terms)
    (h3 : 0 < t2) (h4 : t2 ≤ terms) :
    (∃ d1 : Int, 0 < d1 ∧ (pipelinePQ terms t1).p * d1 = PP 0 terms ∧
      (pipelinePQ terms t1).q * d1 = QQ 0 terms) ∧
    (∃ d2 : Int, 0 < d2 ∧ (pipelinePQ terms t2).p * d2 = PP 0 terms ∧
      (pipelinePQ terms t2).q * d2 = QQ 0 terms) ∧
    (pipelinePQ terms t1).p * (pipelinePQ terms t2).q =
      (pipelinePQ terms t2).p * (pipelinePQ terms t1).q := by
  rw [pipelinePQ_eq_G terms t1 h1 h2, pipelinePQ_eq_G terms t2 h3 h4]
  obtain ⟨d1, hd10, hp1, hq1⟩ := pipelineG_scaled terms t1 h1 h2
  obtain ⟨d2, hd20, hp2, hq2⟩ := pipelineG_scaled terms t2 h3 h4
  refine ⟨⟨d1, hd10, hp1, hq1⟩, ⟨d2, hd20, hp2, hq2⟩, ?_⟩
  have key : (pipelineG terms t1).p * (pipelineG terms t2).q * (d1 * d2) =
      (pipelineG terms t2).p * (pipelineG terms t1).q * (d1 * d2) := by
    calc (pipelineG terms t1).p * (pipelineG terms t2).q * (d1 * d2)
        = (pipelineG terms t1).p * d1 * ((pipelineG terms t2).q * d2) := by ring
      _ = PP 0 terms * QQ 0 terms := by rw [hp1, hq2]
      _ = (pipelineG terms t2).p * d2 * ((pipelineG terms t1).q * d1) := by
          rw [hp2, hq1]
      _ = (pipelineG terms t2).p * (pipelineG terms t1).q * (d1 * d2) := by ring
  exact mul_right_cancel₀ (show d1 * d2 ≠ 0 from ne_of_gt (by positivity)) key

theorem claim_C3_witness :
    0 < 1 ∧ 1 ≤ 4 ∧ 0 < 2 ∧ 2 ≤ 4 ∧
      ((∃ d1 : Int, 0 < d1 ∧ (pipelinePQ 4 1).p * d1 = PP 0 4 ∧
          (pipelinePQ 4 1).q * d1 = QQ 0 4) ∧
        (∃ d2 : Int, 0 < d2 ∧ (pipelinePQ 4 2).p * d2 = PP 0 4 ∧
          (pipelinePQ 4 2).q * d2 = QQ 0 4) ∧
        (pipelinePQ 4 1).p * (pipelinePQ 4 2).q =
          (pipelinePQ 4 2).p * (pipelinePQ 4 1).q) :=
  ⟨by omega, by omega, by omega, by omega,
    claim_C3 4 1 2 (by omega) (by omega) (by omega) (by omega)⟩

set_option maxRecDepth 20000 in
/-- Refutation of the literal claim C3: at `T = 1000` the final shard-0 `P`
differs between a 1-thread and an 8-thread run (the 8-thread shard layout
removes a different set of GCDs), so the exact integers are not
bit-identical. -/
theorem claim_C3_counterexample :
    ¬ (pipelinePQ 1000 1).p = (pipelinePQ 1000 8).p := by
  rw [pipelinePQ_eq_G 1000 1 (by omega) (by omega),
    pipelinePQ_eq_G 1000 8 (by omega) (by omega)]
  decide

/-! ## Claim C6: the retain-G variant -/

/-- The retain-G variant of `bs` agrees with the program's `bs` on `p`, `q`
and the factored `fp` everywhere, and on `g`, `fg` while `b < terms`. -/
theorem bsFVar_eq (terms : Nat) : ∀ fuel a b level, a < b → b ≤ terms →
    b - a ≤ fuel →
    (bsFVar (progSieve terms) terms fuel a b level).p =
      (bsF (progSieve terms) terms fuel a b level).p ∧
    (bsFVar (progSieve terms) terms fuel a b level).q =
      (bsF (progSieve terms) terms fuel a b level).q ∧
    (bsFVar (progSieve terms) terms fuel a b level).fp =
      (bsF (progSieve terms) terms fuel a b level).fp ∧
    (b < terms →
      (bsFVar (progSieve terms) terms fuel a b level).g =
        (bsF (progSieve terms) terms fuel a b level).g ∧
      (bsFVar (progSieve terms) terms fuel a b level).fg =
        (bsF (progSieve terms) terms fuel a b level).fg) := by
  intro fuel
  induction fuel with
  | zero =>
      intro a b level h1 h2 h3
      exfalso
      omega
  | succ f ih =>
      intro a b level h1 h2 h3
      by_cases hbase : b - a = 1
      · rw [bsFVar, bsF, if_pos hbase, if_pos hbase]
        exact ⟨rfl, rfl, rfl, fun _ => ⟨rfl, rfl⟩⟩
      · have hm := bsMid_bounds (show 2 ≤ b - a by omega)
        obtain ⟨hp1, hq1, hfp1, hgfg1⟩ :=
          ih a (bsMid a b) (level + 1) hm.1 (by omega) (by omega)
        obtain ⟨hgL, hfgL⟩ := hgfg1 (by omega)
        obtain ⟨hp2, hq2, hfp2, hgfg2⟩ :=
          ih (bsMid a b) b (level + 1) hm.2.1 h2 (by omega)
        rw [bsFVar, bsF, if_neg hbase, if_neg hbase]
        refine ⟨?_, ?_, ?_, ?_⟩
        · simp only [mkNodeVar, mkNode, hp1, hq1, hfp1, hgL, hfgL, hp2, hq2, hfp2]
        · simp only [mkNodeVar, mkNode, hp1, hq1, hfp1, hgL, hfgL, hp2, hq2, hfp2]
        · simp only [mkNodeVar, mkNode, hp1, hq1, hfp1, hgL, hfgL, hp2, hq2, hfp2]
        · intro hbt
          obtain ⟨hgR, hfgR⟩ := hgfg2 hbt
          constructor
          · simp only [mkNodeVar, mkNode, hp1, hq1, hfp1, hgL, hfgL, hp2, hq2,
              hfp2, hgR, if_pos hbt]
          · simp only [mkNodeVar, mkNode, hp1, hq1, hfp1, hgL, hfgL, hp2, hq2,
              hfp2, hfgR, if_pos hbt]

/-- One variant inner merge pass stays slot-for-slot equal (on `P`, `Q`,
and on `G` where the group end is short of `terms`) to the program's
pass. -/
theorem roundVar_ok (terms threads k : Nat) (ht : 0 < threads)
    (htt : threads ≤ terms) (hk : 0 < k) :
    ∀ fuel i0 stv st, threads ≤ i0 + fuel → i0 % (2 * k) = 0 →
      stv.length = threads → st.length = threads →
      (∀ i, i < threads → i % k = 0 → i0 ≤ i →
        (stGet stv i).p = (stGet st i).p ∧ (stGet stv i).q = (stGet st i).q ∧
        (groupEnd terms threads k i < terms →
          (stGet stv i).g = (stGet st i).g)) →
      (∀ i, i < threads → i % (2 * k) = 0 → i < i0 →
        (stGet stv i).p = (stGet st i).p ∧ (stGet stv i).q = (stGet st i).q ∧
        (groupEnd terms threads (2 * k) i < terms →
          (stGet stv i).g = (stGet st i).g)) →
      (roundInnerVar threads k fuel i0 stv).length = threads ∧
      (roundInner threads k fuel i0 st).length = threads ∧
      (∀ i, i < threads → i % (2 * k) = 0 →
        (stGet (roundInnerVar threads k fuel i0 stv) i).p =
          (stGet (roundInner threads k fuel i0 st) i).p ∧
        (stGet (roundInnerVar threads k fuel i0 stv) i).q =
          (stGet (roundInner threads k fuel i0 st) i).q ∧
        (groupEnd terms threads (2 * k) i < terms →
          (stGet (roundInnerVar threads k fuel i0 stv) i).g =
            (stGet (roundInner threads k fuel i0 st) i).g)) := by
  intro fuel
  induction fuel with
  | zero =>
      intro i0 stv st hfuel h0 hlenv hlen hcur hpast
      rw [roundInnerVar, roundInner]
      exact ⟨hlenv, hlen, fun i hi hmod => hpast i hi hmod (by omega)⟩
  | succ f ih =>
      intro i0 stv st hfuel h0 hlenv hlen hcur hpast
      rw [roundInnerVar, roundInner]
      by_cases hi0 : i0 < threads
      · rw [if_pos hi0, if_pos hi0]
        have hk2 : i0 % k = 0 := by
          obtain ⟨c, hc⟩ :=
            dvd_trans (⟨2, by ring⟩ : k ∣ 2 * k) (Nat.dvd_of_mod_eq_zero h0)
          rw [hc]
          exact Nat.mul_mod_right k c
        by_cases hik : i0 + k < threads
        · rw [if_pos hik, if_pos hik]
          have hlenv' : (sumStepVar stv i0 k).length = threads := by
            rw [sumStepVar, List.length_set, hlenv]
          have hlen' : (sumStep st i0 k (decide (i0 + 2 * k < threads))).length =
              threads := by
            rw [sumStep, List.length_set, hlen]
          have hwriteV : stGet (sumStepVar stv i0 k) i0 =
              ⟨(stGet stv i0).p * (stGet stv (i0 + k)).p,
               (stGet stv i0).q * (stGet stv (i0 + k)).p +
                 (stGet stv (i0 + k)).q * (stGet stv i0).g,
               (stGet stv i0).g * (stGet stv (i0 + k)).g⟩ := by
            rw [sumStepVar]
            exact stGet_set_self stv i0 _ (by omega)
          have hwrite : stGet (sumStep st i0 k (decide (i0 + 2 * k < threads))) i0 =
              ⟨(stGet st i0).p * (stGet st (i0 + k)).p,
               (stGet st i0).q * (stGet st (i0 + k)).p +
                 (stGet st (i0 + k)).q * (stGet st i0).g,
               if decide (i0 + 2 * k < threads)
                 then (stGet st i0).g * (stGet st (i0 + k)).g
                 else (stGet st i0).g⟩ := by
            rw [sumStep]
            exact stGet_set_self st i0 _ (by omega)
          have hotherV : ∀ j, j ≠ i0 →
              stGet (sumStepVar stv i0 k) j = stGet stv j := by
            intro j hj
            rw [sumStepVar]
            exact stGet_set_ne stv i0 j _ hj
          have hother : ∀ j, j ≠ i0 →
              stGet (sumStep st i0 k (decide (i0 + 2 * k < threads))) j =
                stGet st j := by
            intro j hj
            rw [sumStep]
            exact stGet_set_ne st i0 j _ hj
          refine ih (i0 + 2 * k) _ _ (by omega)
            (by rw [Nat.add_mod_right]; exact h0) hlenv' hlen' ?_ ?_
          · intro i hi hmod hge
            rw [hotherV i (by omega), hother i (by omega)]
            exact hcur i hi hmod (by omega)
          · intro i hi hmod hlt
            by_cases hio : i < i0
            · rw [hotherV i (by omega), hother i (by omega)]
              exact hpast i hi hmod hio
            · have hieq : i = i0 := eq_of_mod_both hmod h0 (by omega) (by omega)
              subst hieq
              rw [hwriteV, hwrite]
              obtain ⟨hpi, hqi, hgi0⟩ := hcur i hi hk2 (le_refl _)
              obtain ⟨hpj, hqj, hgj0⟩ := hcur (i + k) hik
                (by rw [Nat.add_mod_right]; exact hk2) (by omega)
              have hgi : (stGet stv i).g = (stGet st i).g :=
                hgi0 (groupEnd_lt terms threads k i ht htt hik)
              refine ⟨?_, ?_, ?_⟩
              · show (stGet stv i).p * (stGet stv (i + k)).p =
                  (stGet st i).p * (stGet st (i + k)).p
                rw [hpi, hpj]
              · show (stGet stv i).q * (stGet stv (i + k)).p +
                    (stGet stv (i + k)).q * (stGet stv i).g =
                  (stGet st i).q * (stGet st (i + k)).p +
                    (stGet st (i + k)).q * (stGet st i).g
                rw [hqi, hpj, hqj, hgi]
              · intro hbt
                have h2k : i + 2 * k < threads := by
                  by_contra h2k
                  rw [groupEnd, if_neg h2k] at hbt
                  omega
                have hgj : (stGet stv (i + k)).g = (stGet st (i + k)).g := by
                  refine hgj0 ?_
                  have hgjend : groupEnd terms threads k (i + k) =
                      groupEnd terms threads (2 * k) i := by
                    rw [groupEnd, groupEnd, show i + k + k = i + 2 * k from by ring]
                  rw [hgjend]
                  exact hbt
                show (stGet stv i).g * (stGet stv (i + k)).g =
                  if decide (i + 2 * k < threads)
                    then (stGet st i).g * (stGet st (i + k)).g
                    else (stGet st i).g
                rw [hgi, hgj]
                simp [h2k]
        · rw [if_neg hik, if_neg hik]
          refine ih (i0 + 2 * k) stv st (by omega)
            (by rw [Nat.add_mod_right]; exact h0) hlenv hlen ?_ ?_
          · intro i hi hmod hge
            exact hcur i hi hmod (by omega)
          · intro i hi hmod hlt
            by_cases hio : i < i0
            · exact hpast i hi hmod hio
            · have hieq : i = i0 := eq_of_mod_both hmod h0 (by omega) (by omega)
              subst hieq
              have hgeq : groupEnd terms threads (2 * k) i =
                  groupEnd terms threads k i := by
                rw [groupEnd, groupEnd, if_neg (by omega), if_neg (by omega)]
              rw [hgeq]
              exact hcur i hi hk2 (le_refl _)
      · rw [if_neg hi0, if_neg hi0]
        exact ⟨hlenv, hlen, fun i hi hmod => hpast i hi hmod (by omega)⟩

/-- The variant round loop stays slot-for-slot equal to the program's
round loop. -/
theorem roundsVar_ok (terms threads csize : Nat) (ht : 0 < threads)
    (htt : threads ≤ terms) :
    ∀ fuel k stv st, 0 < k → csize ≤ k * 2 ^ fuel →
      stv.length = threads → st.length = threads →
      (∀ i, i < threads → i % k = 0 →
        (stGet stv i).p = (stGet st i).p ∧ (stGet stv i).q = (stGet st i).q ∧
        (groupEnd terms threads k i < terms →
          (stGet stv i).g = (stGet st i).g)) →
      ∃ K, 0 < K ∧ csize ≤ K ∧
        (∀ i, i < threads → i % K = 0 →
          (stGet (roundsLoopVar threads csize fuel k stv) i).p =
            (stGet (roundsLoop threads csize fuel k st) i).p ∧
          (stGet (roundsLoopVar threads csize fuel k stv) i).q =
            (stGet (roundsLoop threads csize fuel k st) i).q ∧
          (groupEnd terms threads K i < terms →
            (stGet (roundsLoopVar threads csize fuel k stv) i).g =
              (stGet (roundsLoop threads csize fuel k st) i).g)) := by
  intro fuel
  induction fuel with
  | zero =>
      intro k stv st hk hcs hlenv hlen hinv
      rw [roundsLoopVar, roundsLoop]
      have h1 : (2 : Nat) ^ 0 = 1 := rfl
      exact ⟨k, hk, by omega, hinv⟩
  | succ f ih =>
      intro k stv st hk hcs hlenv hlen hinv
      rw [roundsLoopVar, roundsLoop]
      by_cases hkc : k < csize
      · rw [if_pos hkc, if_pos hkc]
        obtain ⟨hlenv1, hlen1, hinv1⟩ := roundVar_ok terms threads k ht htt hk
          threads 0 stv st (by omega) (Nat.zero_mod _) hlenv hlen
          (fun i hi hmod _ => hinv i hi hmod)
          (fun i _ _ hlt => absurd hlt (by omega))
        have hcs' : csize ≤ 2 * k * 2 ^ f := by
          have h1 : k * 2 ^ (f + 1) = 2 * k * 2 ^ f := by ring
          omega
        exact ih (2 * k) (roundInnerVar threads k threads 0 stv)
          (roundInner threads k threads 0 st) (by omega) hcs' hlenv1 hlen1 hinv1
      · rw [if_neg hkc, if_neg hkc]
        exact ⟨k, hk, by omega, hinv⟩

/-- Claim C6: computing and retaining `G` unconditionally — in the splitter
at every node and in every reduction merge — never changes the final
`(P, Q)` of shard 0. -/
theorem claim_C6 (terms threads : Nat) (h1 : 0 < threads) (h2 : threads ≤ terms) :
    (pipelineVar terms threads).p = (pipelinePQ terms threads).p ∧
    (pipelineVar terms threads).q = (pipelinePQ terms threads).q := by
  have ht0 : ¬ terms = 0 := by omega
  rw [pipelineVar, pipelinePQ, if_neg ht0, if_neg ht0, reduceAll]
  have hinit : ∀ i, i < threads → i % 1 = 0 →
      (stGet ((List.range threads).map (shardTripleVar terms threads)) i).p =
        (stGet ((List.range threads).map (shardTriple terms threads)) i).p ∧
      (stGet ((List.range threads).map (shardTripleVar terms threads)) i).q =
        (stGet ((List.range threads).map (shardTriple terms threads)) i).q ∧
      (groupEnd terms threads 1 i < terms →
        (stGet ((List.range threads).map (shardTripleVar terms threads)) i).g =
          (stGet ((List.range threads).map (shardTriple terms threads)) i).g) := by
    intro i hi _
    rw [stGet_range_map _ _ _ hi, stGet_range_map _ _ _ hi]
    obtain ⟨hab, hbt⟩ := shard_range_ok terms threads i h1 h2 hi
    obtain ⟨hp, hq, _, hgfg⟩ := bsFVar_eq terms
      (shardEnd terms threads i - i * (terms / threads)) (i * (terms / threads))
      (shardEnd terms threads i) (coresDepth threads) hab hbt (le_refl _)
    refine ⟨hp, hq, ?_⟩
    intro hlt
    have hend : shardEnd terms threads i < terms := by
      rw [groupEnd] at hlt
      by_cases hil : i + 1 < threads
      · rw [if_pos hil] at hlt
        rw [shardEnd, if_pos hil]
        exact hlt
      · rw [if_neg hil] at hlt
        omega
    exact (hgfg hend).1
  obtain ⟨K, hK0, hKcs, hfin⟩ := roundsVar_ok terms threads
    (2 ^ coresDepth threads) h1 h2 (coresDepth threads + 1) 1
    ((List.range threads).map (shardTripleVar terms threads))
    ((List.range threads).map (shardTriple terms threads)) one_pos
    (by
      have hpow : (2 : Nat) ^ coresDepth threads ≤ 2 ^ (coresDepth threads + 1) :=
        Nat.pow_le_pow_right (by omega) (by omega)
      omega)
    (by rw [List.length_map, List.length_range])
    (by rw [List.length_map, List.length_range]) hinit
  obtain ⟨hp, hq, _⟩ := hfin 0 h1 (Nat.zero_mod K)
  exact ⟨hp, hq⟩

theorem claim_C6_witness :
    0 < 2 ∧ 2 ≤ 4 ∧
      ((pipelineVar 4 2).p = (pipelinePQ 4 2).p ∧
        (pipelineVar 4 2).q = (pipelinePQ 4 2).q) :=
  ⟨by omega, by omega, claim_C6 4 2 (by omega) (by omega)⟩

/-! ## Claim C9 -/

/-- Claim C9: with term count 0 the initial triple is set directly to
`P = 1, Q = 0, G = 1` — the splitter and the reduction are skipped — and
the precision-conversion stage receives the pair
`(p * (C/D), q + A * p) = (53360, 13591409)` built from that triple. -/
theorem claim_C9 (threads : Nat) :
    pipelinePQ 0 threads = ⟨1, 0, 1⟩ ∧
    convInput 0 threads = (53360, 13591409) := by
  refine ⟨?_, ?_⟩
  · rw [pipelinePQ, if_pos rfl]
  · rw [convInput, pipelinePQ, if_pos rfl]
    decide

/-! ## Claim C10 -/

/-- On an empty shard range `[0, 0)` the recursion of `bs` never reaches a
base case: every amount of fuel is exhausted without producing a result
(the fuel-free C recursion calls itself forever on `a = b = 0`). -/
theorem bsF_empty (sv : SieveMap) (terms : Nat) :
    ∀ fuel level, bsF sv terms fuel 0 0 level = ⟨1, 0, 1, [], []⟩ := by
  intro fuel
  induction fuel with
  | zero =>
      intro level
      rw [bsF]
  | succ f ih =>
      intro level
      rw [bsF, if_neg (by omega)]
      have hmid : bsMid 0 0 = 0 := by rw [bsMid]
      rw [hmid, ih]
      have hred : fac_remove_gcd 1 [] 1 [] = ⟨1, [], 1, []⟩ := by
        simp [fac_remove_gcd, facGcdSub]
      by_cases hlev : 4 ≤ level
      · simp only [mkNode, if_pos hlev, hred]
        by_cases hterm : 0 < terms
        · simp [if_pos hterm, fac_mul2]
        · simp [if_neg hterm, fac_mul2]
      · simp only [mkNode, if_neg hlev]
        by_cases hterm : 0 < terms
        · simp [if_pos hterm, fac_mul2]
        · simp [if_neg hterm, fac_mul2]

/-- Claim C10 (code bug): a missing argument does print the synopsis and
exit with status 1, and digits are clamped to `MAX_DIGITS`; but the
thread-clamping chain does not enforce `t <= min(terms, ncpus)`. With
`terms = 2`, requested `threads = 100` and 8 logical cores, the chain
clamps to `ncpus = 8 > terms`, so shard 0's range is `[0, 0*mid) = [0, 0)`
with `mid = terms/threads = 0`, and on that empty range the splitter
recursion never terminates (every fuel bound is exhausted). -/
theorem claim_C10 :
    argcExit 1 = some 1 ∧
    clampDigits (MAX_DIGITS + 5) = MAX_DIGITS ∧
    clampThreads 2 100 8 = 8 ∧
    ¬ clampThreads 2 100 8 ≤ min (2 : Int) 8 ∧
    shardEnd 2 8 0 = 0 ∧
    (∀ sv fuel level, bsF sv 2 fuel (0 * (2 / 8)) (shardEnd 2 8 0) level =
      ⟨1, 0, 1, [], []⟩) := by
  refine ⟨rfl, by decide, by decide, by decide, rfl, ?_⟩
  intro sv fuel level
  show bsF sv 2 fuel 0 0 level = ⟨1, 0, 1, [], []⟩
  exact bsF_empty sv 2 fuel level

end Chud
